import Mathlib

/-!
Verification of the `eventz` marshalling engine (`src/eventz/marshall.py`).

The development shallowly embeds the two components of the module:

* `Marshall` — the recursive serialise/deserialise engine with its codec
  registry (`Marshall.serialise_data`, `Marshall.deserialise_data`,
  `Marshall.to_json`, `Marshall.from_json` and their helpers);
* `FqnResolver` — the bidirectional public/private name table with
  wildcard fallback (`FqnResolver._get_fqn`, `_lookup_fqn`,
  `fqn_to_type`, `instance_to_fqn`).

Python runtime values relevant to the engine are modelled by the
inductive `PyVal`.  Python exceptions are modelled by `PyErr`; fallible
code returns `Except PyErr _`.  `json.dumps(data, sort_keys=True,
separators=(",", ":"))` and `json.loads` from the standard library are
modelled by `dumps`/`loads` below (compact rendering with sorted keys,
`ensure_ascii` escaping; the parser covers the grammar that the compact
renderer emits, which is how `json.loads` behaves on every string
`to_json` produces).
-/

namespace Eventz

/-- Python values as seen by the marshalling engine: the JSON-compatible
builtins (`None`, `bool`, `int`, `str`, `list`, `tuple`, `dict`), the
`immutables.Map` type returned by deserialisation, generic application
objects (identified by the full private path of their class together
with their `vars(obj)` attribute dictionary), and enum members
(identified by their class path and member name, and carrying the
member's `_value_` attribute as `vars` exposes it on the instance).  `dict`,
`map` and `obj` attribute dictionaries are insertion-ordered association
lists with (in any state reachable from Python) pairwise-distinct string
keys.  Python floats, sets and `datetime` values play no part in any
claim and are not modelled. -/
inductive PyVal where
  | none
  | bool (b : Bool)
  | int (n : Int)
  | str (s : String)
  | list (xs : List PyVal)
  | tuple (xs : List PyVal)
  | dict (entries : List (String × PyVal))
  | map (entries : List (String × PyVal))
  | obj (cls : String) (fields : List (String × PyVal))
  | enumMember (cls : String) (mname : String) (mval : PyVal)

/-- Python exceptions raised by the marshalling code: `KeyError` (failed
dictionary subscript, carrying the missing key), `IndexError` (`key[-1]`
on an empty string), `TypeError` (`json.dumps` on a non-serialisable
value, and kindred misuse), `ValueError` (`json.loads` on malformed
text). -/
inductive PyErr where
  | keyError (k : String)
  | indexError
  | typeError
  | valueError
  deriving DecidableEq, Repr

/-- A registered codec: the `handles`/`serialise`/`deserialise` triple of
`MarshallCodecProtocol`.  `serialise` returns the complete codec
envelope (the dictionary that `_object_to_codec_dict` passes through
unchanged); `deserialise` receives the raw decoded `params` payload. -/
structure MCodec where
  handles : PyVal → Bool
  serialise : PyVal → PyVal
  deserialise : PyVal → PyVal

/-- `FqnResolver.__init__`: the public→private table, as the
insertion-ordered pair list of the `fqn_map` dictionary (keys are unique
since `fqn_map` is a Python `dict`). -/
structure FqnResolver where
  publicToPrivate : List (String × String)

/-- The derived reverse table `{b: a for a, b in fqn_map.items()}`.  A
Python dict comprehension lets a later duplicate value overwrite an
earlier one, while association-list lookup returns the first hit, so the
pair list is reversed. -/
def FqnResolver.privateToPublic (r : FqnResolver) : List (String × String) :=
  (r.publicToPrivate.map (fun p => (p.2, p.1))).reverse

/-- `FqnResolver._lookup_fqn`: raw table lookup, `KeyError` on a miss. -/
def FqnResolver.lookupFqn (r : FqnResolver) (key : String) (pub : Bool) :
    Except PyErr String :=
  match (if pub then r.publicToPrivate.lookup key else r.privateToPublic.lookup key) with
  | some v => .ok v
  | Option.none => .error (.keyError key)

/-- Python's `str.startswith(p)`. -/
def pyStartsWith (s p : String) : Bool :=
  p.data.isPrefixOf s.data

/-- Python's `str.endswith(p)`. -/
def pyEndsWith (s p : String) : Bool :=
  p.data.isSuffixOf s.data

/-- Python's `str.split(sep)` for a one-character separator: the list of
(possibly empty) chunks between occurrences of `c`; `"".split(c)` is
`[""]`. -/
def splitOnChar (c : Char) : List Char → List (List Char)
  | [] => [[]]
  | x :: rest =>
    if x = c then [] :: splitOnChar c rest
    else
      match splitOnChar c rest with
      | g :: gs => (x :: g) :: gs
      | [] => [[x]]

/-- Python's `sep.join(parts)` for a one-character separator. -/
def joinWithChar (c : Char) (parts : List (List Char)) : List Char :=
  (parts.intersperse [c]).flatten

/-- The path segments `parts = key.split(".")`. -/
def pathParts (key : String) : List String :=
  (splitOnChar '.' key.data).map String.mk

/-- The wildcard key built by `_get_fqn`: the path with its final
segment replaced by `*` (`".".join(parts + ["*"])` after `parts.pop()`). -/
def starKey (key : String) : String :=
  String.mk (joinWithChar '.' (((pathParts key).dropLast ++ ["*"]).map String.data))

/-- The final path segment popped off by `_get_fqn` (`parts.pop()`). -/
def lastSegment (key : String) : String :=
  (pathParts key).getLastD ""

/-- `FqnResolver._get_fqn`: exact lookup; on `KeyError`, if the key does
not itself end in `*` and contains a `.`, retry with the final segment
replaced by `*` and, on success, append the original final segment onto
the matched path with its trailing `*` removed (`path[:-1] + entity`).
A failed wildcard lookup raises its own `KeyError` (for the star key);
if the guard fails the original `KeyError` is re-raised.  Python
evaluates `key[-1]` before `"." in key`, so an empty key raises
`IndexError` there. -/
def FqnResolver.getFqn (r : FqnResolver) (key : String) (pub : Bool) :
    Except PyErr String :=
  match r.lookupFqn key pub with
  | .ok v => .ok v
  | .error e =>
    if key = "" then .error .indexError
    else if key.back ≠ '*' ∧ key.data.contains '.' then
      match r.lookupFqn (starKey key) pub with
      | .ok path => .ok (path.dropRight 1 ++ lastSegment key)
      | .error e2 => .error e2
    else .error e

/-- `FqnResolver.fqn_to_type`: resolve the public wire name to the
private path and load the class at that path.  The
`importlib.import_module`/`getattr` pair is modelled by identifying a
class with its full private path string. -/
def FqnResolver.fqnToType (r : FqnResolver) (fqn : String) : Except PyErr String :=
  r.getFqn fqn true

/-- `FqnResolver.instance_to_fqn`: the instance's private path
(`__module__ + "." + __name__`, the `cls` component of `PyVal.obj`)
resolved through the reverse table. -/
def FqnResolver.instanceToFqn (r : FqnResolver) (cls : String) : Except PyErr String :=
  r.getFqn cls false

/-- The `Marshall` object: its resolver and its codec registry
(`self._codecs`, a name→codec dictionary; the list order is dictionary
insertion order, i.e. registration order). -/
structure Marshall where
  resolver : FqnResolver
  codecs : List (String × MCodec)

/-- `Marshall.register_codec`: Python dict assignment — an existing name
keeps its position with the codec replaced, a new name is appended. -/
def Marshall.registerCodec (M : Marshall) (fcn : String) (codec : MCodec) : Marshall :=
  if (M.codecs.lookup fcn).isSome then
    { M with codecs := M.codecs.map (fun p => if p.1 = fcn then (fcn, codec) else p) }
  else
    { M with codecs := M.codecs ++ [(fcn, codec)] }

/-- `Marshall._is_handled_by_codec`: `any(codec.handles(data) for codec
in self._codecs.values())`. -/
def Marshall.isHandledByCodec (M : Marshall) (v : PyVal) : Bool :=
  M.codecs.any (fun p => p.2.handles v)

/-- `Marshall._object_to_codec_dict`: iterate the registry in
registration order and return the first accepting codec's `serialise`
output; `Option.none` models the implicit `None` fall-through when no
codec accepts. -/
def Marshall.objectToCodecDict (M : Marshall) (v : PyVal) : Option PyVal :=
  (M.codecs.find? (fun p => p.2.handles v)).map (fun p => p.2.serialise v)

/-- `Marshall._is_sequence`: `isinstance(data, (list, tuple))`. -/
def isSequence : PyVal → Bool
  | .list _ => true
  | .tuple _ => true
  | _ => false

/-- `Marshall._is_mapping`: `isinstance(data, (dict, set,
immutables.Map))` (sets are not modelled). -/
def isMapping : PyVal → Bool
  | .dict _ => true
  | .map _ => true
  | _ => false

/-- `Marshall._is_simple_type`: `type(data).__module__ == "builtins"`
(plus `datetime`).  `immutables.Map` lives in module `immutables`,
application classes and enums in application modules, so only the
builtin shapes qualify. -/
def isSimpleType : PyVal → Bool
  | .none | .bool _ | .int _ | .str _ => true
  | .list _ | .tuple _ | .dict _ => true
  | .map _ | .obj _ _ | .enumMember _ _ _ => false

/-- `Marshall._is_enum_dict`: a `dict` with both `"_value_"` and
`"_name_"` keys. -/
def isEnumDict : PyVal → Bool
  | .dict es => ((es.lookup "_value_").isSome && (es.lookup "_name_").isSome)
  | _ => false

/-- `Marshall._is_serialised_class`: a `dict` with an `"__fqn__"` key. -/
def isSerialisedClass : PyVal → Bool
  | .dict es => (es.lookup "__fqn__").isSome
  | _ => false

/-- `Marshall._requires_codec`: a `dict` with a `"__codec__"` key. -/
def requiresCodec : PyVal → Bool
  | .dict es => (es.lookup "__codec__").isSome
  | _ => false

/-- Python truthiness (`bool(x)`) for the modelled values, as used by
`data.get("__msgid__")`/`data.get("__timestamp__")` tests in
`_dict_to_object` (a missing key makes `get` return falsy `None`). -/
def truthy : PyVal → Bool
  | .none => false
  | .bool b => b
  | .int n => n ≠ 0
  | .str s => s ≠ ""
  | .list xs => !xs.isEmpty
  | .tuple xs => !xs.isEmpty
  | .dict es => !es.isEmpty
  | .map es => !es.isEmpty
  | .obj _ _ => true
  | .enumMember _ _ _ => true

/-- `Marshall._dict_to_enum`: resolve `data["__fqn__"]` to the enum
class and return `getattr(_class, data["_name_"])`, the member of that
class with the stored symbolic name (member existence on the class is
not modelled; a non-string name would make `getattr` raise).  The
member's class-defined `_value_` attribute lives on the resolved class,
which the path-string model of classes does not carry, so the decoded
member's value component is left at `PyVal.none`; like the source, this
path reads only `__fqn__` and `_name_` from the envelope. -/
def Marshall.dictToEnum (M : Marshall) (es : List (String × PyVal)) :
    Except PyErr PyVal := do
  let fqn ← match es.lookup "__fqn__" with
    | some (.str s) => Except.ok s
    | some _ => Except.error .typeError
    | Option.none => Except.error (.keyError "__fqn__")
  let cls ← M.resolver.fqnToType fqn
  match es.lookup "_name_" with
  | some (.str n) => Except.ok (.enumMember cls n .none)
  | some _ => Except.error .typeError
  | Option.none => Except.error (.keyError "_name_")

/-- `Marshall._codec_dict_to_object`: `self._codecs[data["__codec__"]]
.deserialise(data["params"])`.  The registry subscript raises a plain
`KeyError` for an unregistered name (the file's `NoCodecError` class is
never raised). -/
def Marshall.codecDictToObject (M : Marshall) (es : List (String × PyVal)) :
    Except PyErr PyVal := do
  let fcn ← match es.lookup "__codec__" with
    | some (.str s) => Except.ok s
    | some _ => Except.error .typeError
    | Option.none => Except.error (.keyError "__codec__")
  match M.codecs.lookup fcn with
  | some codec =>
    match es.lookup "params" with
    | some p => Except.ok (codec.deserialise p)
    | Option.none => Except.error (.keyError "params")
  | Option.none => Except.error (.keyError fcn)

theorem sizeOf_lookup {l : List (String × PyVal)} {k : String} {v : PyVal}
    (h : l.lookup k = some v) : sizeOf v < sizeOf l := by
  induction l with
  | nil => simp [List.lookup] at h
  | cons p rest ih =>
    rw [List.lookup] at h
    by_cases hk : k = p.1
    · simp [hk] at h
      subst h
      rcases p with ⟨a, b⟩
      simp
      omega
    · have : (k == p.1) = false := beq_false_of_ne hk
      rw [this] at h
      simp at h
      have := ih h
      rcases p with ⟨a, b⟩
      simp
      omega

theorem sizeOf_filter (p : String × PyVal → Bool) (l : List (String × PyVal)) :
    sizeOf (l.filter p) ≤ sizeOf l := by
  induction l with
  | nil => simp
  | cons q rest ih =>
    rw [List.filter]
    cases p q with
    | true => simp; omega
    | false => simp; omega

mutual

/-- `Marshall.serialise_data`: the encode-side dispatch chain.  The
guards of the source are mutually exclusive on the modelled shapes, so
they appear as one outer codec test followed by a shape match: `list`/
`tuple` is the `_is_sequence` branch (a fresh *list* is built in either
case), `dict`/`map` the `_is_mapping` branch (a fresh plain dict),
`none`/`bool`/`int`/`str` the `_is_simple_type` pass-through, and
`obj`/`enumMember` the final `_object_to_dict` reflection (the source
checks `_is_mapping` before `_is_simple_type`, so `dict` takes the
mapping branch).  The codec branch returns whatever
`_object_to_codec_dict` produced, `None` included. -/
def Marshall.serialiseData (M : Marshall) (v : PyVal) : Except PyErr PyVal :=
  if M.isHandledByCodec v then .ok ((M.objectToCodecDict v).getD .none)
  else
    match v with
    | .list xs => (M.serialiseList xs).map PyVal.list
    | .tuple xs => (M.serialiseList xs).map PyVal.list
    | .dict es => (M.serialiseEntries es).map PyVal.dict
    | .map es => (M.serialiseEntries es).map PyVal.dict
    | .none => .ok v
    | .bool _ => .ok v
    | .int _ => .ok v
    | .str _ => .ok v
    | .obj cls fields => M.objectToDict cls fields
    | .enumMember cls n mval => do
      -- `_object_to_dict` inlined at an enum member, whose `vars` view is
      -- `{"_name_": ..., "_value_": ..., "__objclass__": ...}`: `__objclass__`
      -- is filtered out by the `startswith("__")` test, and `_name_` and
      -- `_value_` each pass through `serialise_data` (for the name string
      -- that is the codec check followed by the simple-type pass-through).
      let fqn ← M.resolver.instanceToFqn cls
      let nv : PyVal :=
        if M.isHandledByCodec (.str n) then (M.objectToCodecDict (.str n)).getD .none
        else .str n
      let vv ← M.serialiseData mval
      .ok (.dict [("__fqn__", .str fqn), ("_name_", nv), ("_value_", vv)])
termination_by (sizeOf v, 1)
decreasing_by
  all_goals simp_wf
  all_goals apply Prod.Lex.left
  all_goals omega

/-- The element loop of the `_is_sequence` branch. -/
def Marshall.serialiseList (M : Marshall) (xs : List PyVal) :
    Except PyErr (List PyVal) :=
  match xs with
  | [] => .ok []
  | x :: rest => do
    let y ← M.serialiseData x
    let ys ← M.serialiseList rest
    .ok (y :: ys)
termination_by (sizeOf xs, 0)
decreasing_by
  all_goals simp_wf
  all_goals first
  | (apply Prod.Lex.left; omega)
  | (apply Prod.Lex.right; omega)

/-- The key/value loop of the `_is_mapping` branch. -/
def Marshall.serialiseEntries (M : Marshall) (es : List (String × PyVal)) :
    Except PyErr (List (String × PyVal)) :=
  match es with
  | [] => .ok []
  | (k, x) :: rest => do
    let y ← M.serialiseData x
    let ys ← M.serialiseEntries rest
    .ok ((k, y) :: ys)
termination_by (sizeOf es, 0)
decreasing_by
  all_goals simp_wf
  all_goals apply Prod.Lex.left
  all_goals omega

/-- `Marshall._object_to_dict`: start the envelope with `__fqn__` from
the resolver, copy `__version__` and `__msgid__` through raw when the
instance has them, recursively serialise `__timestamp__` when present,
then recursively serialise every attribute not starting with `__`
(`hasattr`/attribute reads are modelled as lookups in the instance's
attribute list; the optional `get_json_data` hook is not modelled, so
the field view is always `vars(obj)`). -/
def Marshall.objectToDict (M : Marshall) (cls : String)
    (fields : List (String × PyVal)) : Except PyErr PyVal := do
  let fqn ← M.resolver.instanceToFqn cls
  let meta1 : List (String × PyVal) :=
    match fields.lookup "__version__" with
    | some v => [("__version__", v)]
    | Option.none => []
  let meta2 : List (String × PyVal) :=
    match fields.lookup "__msgid__" with
    | some v => [("__msgid__", v)]
    | Option.none => []
  let meta3 : List (String × PyVal) ←
    match h : fields.lookup "__timestamp__" with
    | some t => do
      let t' ← M.serialiseData t
      Except.ok [("__timestamp__", t')]
    | Option.none => Except.ok []
  let rest ← M.serialiseEntries (fields.filter (fun p => !pyStartsWith p.1 "__"))
  .ok (.dict (("__fqn__", .str fqn) :: (meta1 ++ meta2 ++ meta3 ++ rest)))
termination_by (sizeOf fields, 2)
decreasing_by
  · simp_wf
    have hf := sizeOf_filter (fun p => !pyStartsWith p.1 "__") fields
    rcases Nat.lt_or_eq_of_le hf with h | h
    · exact Prod.Lex.left _ _ h
    · rw [h]
      exact Prod.Lex.right _ (by omega)
  · simp_wf
    exact Prod.Lex.left _ _ (sizeOf_lookup (by assumption))

end

mutual

/-- `Marshall.deserialise_data`: the decode-side dispatch chain.  On a
`dict`, the source's guards run in order — `_is_enum_dict`,
`_is_serialised_class`, `_requires_codec`, then `_is_mapping` (which a
`dict` always satisfies, returning `immutables.Map(new_mapping)`); a
`list`/`tuple` takes the `_is_sequence` branch building a fresh *list*;
an `immutables.Map` input satisfies only `_is_mapping`; every other
value falls through the final `else` unchanged. -/
def Marshall.deserialiseData (M : Marshall) (v : PyVal) : Except PyErr PyVal :=
  match v with
  | .dict es =>
    if ((es.lookup "_value_").isSome && (es.lookup "_name_").isSome) then
      M.dictToEnum es
    else if (es.lookup "__fqn__").isSome then
      M.dictToObject es
    else if (es.lookup "__codec__").isSome then
      M.codecDictToObject es
    else
      (M.deserialiseEntries es).map PyVal.map
  | .list xs => (M.deserialiseList xs).map PyVal.list
  | .tuple xs => (M.deserialiseList xs).map PyVal.list
  | .map es => (M.deserialiseEntries es).map PyVal.map
  | v => .ok v
termination_by (sizeOf v, 1)
decreasing_by
  all_goals simp_wf
  all_goals apply Prod.Lex.left
  all_goals omega

/-- The element loop of the decode `_is_sequence` branch. -/
def Marshall.deserialiseList (M : Marshall) (xs : List PyVal) :
    Except PyErr (List PyVal) :=
  match xs with
  | [] => .ok []
  | x :: rest => do
    let y ← M.deserialiseData x
    let ys ← M.deserialiseList rest
    .ok (y :: ys)
termination_by (sizeOf xs, 0)
decreasing_by
  all_goals simp_wf
  all_goals apply Prod.Lex.left
  all_goals omega

/-- The key/value loop of the decode `_is_mapping` branch. -/
def Marshall.deserialiseEntries (M : Marshall) (es : List (String × PyVal)) :
    Except PyErr (List (String × PyVal)) :=
  match es with
  | [] => .ok []
  | (k, x) :: rest => do
    let y ← M.deserialiseData x
    let ys ← M.deserialiseEntries rest
    .ok ((k, y) :: ys)
termination_by (sizeOf es, 0)
decreasing_by
  all_goals simp_wf
  all_goals apply Prod.Lex.left
  all_goals omega

/-- `Marshall._dict_to_object`: assemble the constructor keyword
arguments — `__msgid__` raw when truthy, `__timestamp__` recursively
deserialised when (its serialised form is) truthy, then every key not
starting with `__` recursively deserialised — resolve `data["__fqn__"]`
through the resolver, and invoke the class.  A constructor that accepts
every passed name as a named parameter and stores it unchanged is
modelled by building `PyVal.obj` over the keyword-argument list. -/
def Marshall.dictToObject (M : Marshall) (es : List (String × PyVal)) :
    Except PyErr PyVal := do
  let k1 : List (String × PyVal) :=
    match es.lookup "__msgid__" with
    | some v => if truthy v then [("__msgid__", v)] else []
    | Option.none => []
  let k2 : List (String × PyVal) ←
    match h : es.lookup "__timestamp__" with
    | some v =>
      if truthy v then do
        let v' ← M.deserialiseData v
        Except.ok [("__timestamp__", v')]
      else Except.ok []
    | Option.none => Except.ok []
  let rest ← M.deserialiseEntries (es.filter (fun p => !pyStartsWith p.1 "__"))
  let fqn ← match es.lookup "__fqn__" with
    | some (.str s) => Except.ok s
    | some _ => Except.error .typeError
    | Option.none => Except.error (.keyError "__fqn__")
  let cls ← M.resolver.fqnToType fqn
  .ok (.obj cls (k1 ++ k2 ++ rest))
termination_by (sizeOf es, 2)
decreasing_by
  · simp_wf
    have hf := sizeOf_filter (fun p => !pyStartsWith p.1 "__") es
    rcases Nat.lt_or_eq_of_le hf with h | h
    · exact Prod.Lex.left _ _ h
    · rw [h]
      exact Prod.Lex.right _ (by omega)
  · simp_wf
    exact Prod.Lex.left _ _ (sizeOf_lookup (by assumption))

end

/-! JSON rendering: a model of `json.dumps(data, sort_keys=True,
separators=(",", ":"))` with its default `ensure_ascii=True` escaping.
Output is built as a character list. -/

/-- Lower-case hexadecimal digit, as in CPython's `\uXXXX` escapes. -/
def hexDigitChar (n : Nat) : Char :=
  if n < 10 then Char.ofNat (48 + n) else Char.ofNat (87 + n)

/-- Four-digit hexadecimal rendering of `n < 0x10000`. -/
def hex4 (n : Nat) : List Char :=
  [hexDigitChar (n / 4096 % 16), hexDigitChar (n / 256 % 16),
   hexDigitChar (n / 16 % 16), hexDigitChar (n % 16)]

/-- CPython's `py_encode_basestring_ascii` escaping of one character:
the two-character escapes for `\`, `"`, backspace, form feed, newline,
carriage return and tab; printable ASCII passed through; everything
else as `\uXXXX`, with a surrogate pair beyond the BMP. -/
def escapeChar (c : Char) : List Char :=
  if c = '\\' then ['\\', '\\']
  else if c = '"' then ['\\', '"']
  else if c.toNat = 8 then ['\\', 'b']
  else if c.toNat = 12 then ['\\', 'f']
  else if c = '\n' then ['\\', 'n']
  else if c.toNat = 13 then ['\\', 'r']
  else if c = '\t' then ['\\', 't']
  else if 32 ≤ c.toNat && c.toNat ≤ 126 then [c]
  else if c.toNat < 65536 then '\\' :: 'u' :: hex4 c.toNat
  else
    ('\\' :: 'u' :: hex4 (55296 + (c.toNat - 65536) / 1024)) ++
    ('\\' :: 'u' :: hex4 (56320 + (c.toNat - 65536) % 1024))

/-- A JSON string literal: quotes around the escaped characters. -/
def strChars (s : String) : List Char :=
  '"' :: (s.data.map escapeChar).flatten ++ ['"']

/-- Base-10 digits of `n`, least significant first, by repeated
division (the fuel argument makes the recursion structural; `fuel = n`
always suffices). -/
def natDigitsLE : Nat → Nat → List Nat
  | 0, _ => []
  | fuel + 1, n => if n = 0 then [] else n % 10 :: natDigitsLE fuel (n / 10)

/-- Decimal rendering of a natural number. -/
def natChars (n : Nat) : List Char :=
  if n = 0 then ['0'] else (natDigitsLE n n).reverse.map (fun d => Char.ofNat (48 + d))

/-- Decimal rendering of a Python `int`. -/
def intChars (n : Int) : List Char :=
  if n < 0 then '-' :: natChars n.natAbs else natChars n.natAbs

/-- `",".join` of the rendered chunks (the compact item separator). -/
def joinComma (chunks : List (List Char)) : List Char :=
  (chunks.intersperse [',']).flatten

/-- Code-point lexicographic string order, exactly Python's `str`
comparison (and the order `sort_keys=True` sorts by). -/
def charListLe : List Char → List Char → Bool
  | [], _ => true
  | _ :: _, [] => false
  | a :: as, b :: bs =>
    if a.toNat < b.toNat then true
    else if b.toNat < a.toNat then false
    else charListLe as bs

theorem charListLe_total (as bs : List Char) :
    charListLe as bs = true ∨ charListLe bs as = true := by
  induction as generalizing bs with
  | nil => left; rfl
  | cons a as ih =>
    cases bs with
    | nil => right; rfl
    | cons b bs =>
      rw [charListLe, charListLe]
      by_cases h1 : a.toNat < b.toNat
      · left
        rw [if_pos h1]
      · by_cases h2 : b.toNat < a.toNat
        · right
          rw [if_pos h2]
        · rw [if_neg h1, if_neg h2, if_neg h2, if_neg h1]
          exact ih bs

theorem charListLe_trans {as bs cs : List Char} (h1 : charListLe as bs = true)
    (h2 : charListLe bs cs = true) : charListLe as cs = true := by
  induction as generalizing bs cs with
  | nil => rfl
  | cons a as ih =>
    cases bs with
    | nil => rw [charListLe] at h1; cases h1
    | cons b bs =>
      cases cs with
      | nil => rw [charListLe] at h2; cases h2
      | cons c cs =>
        rw [charListLe] at h1 h2 ⊢
        by_cases hab : a.toNat < b.toNat
        · by_cases hbc : b.toNat < c.toNat
          · rw [if_pos (by omega : a.toNat < c.toNat)]
          · by_cases hcb : c.toNat < b.toNat
            · rw [if_neg hbc, if_pos hcb] at h2
              cases h2
            · rw [if_pos (by omega : a.toNat < c.toNat)]
        · by_cases hba : b.toNat < a.toNat
          · rw [if_neg hab, if_pos hba] at h1
            cases h1
          · by_cases hbc : b.toNat < c.toNat
            · rw [if_pos (by omega : a.toNat < c.toNat)]
            · by_cases hcb : c.toNat < b.toNat
              · rw [if_neg hbc, if_pos hcb] at h2
                cases h2
              · rw [if_neg hab, if_neg hba] at h1
                rw [if_neg hbc, if_neg hcb] at h2
                rw [if_neg (by omega : ¬ a.toNat < c.toNat),
                  if_neg (by omega : ¬ c.toNat < a.toNat)]
                exact ih h1 h2

theorem charListLe_antisymm {as bs : List Char} (h1 : charListLe as bs = true)
    (h2 : charListLe bs as = true) : as = bs := by
  induction as generalizing bs with
  | nil =>
    cases bs with
    | nil => rfl
    | cons b bs => rw [charListLe] at h2; cases h2
  | cons a as ih =>
    cases bs with
    | nil => rw [charListLe] at h1; cases h1
    | cons b bs =>
      rw [charListLe] at h1 h2
      by_cases hab : a.toNat < b.toNat
      · rw [if_neg (by omega), if_pos hab] at h2
        cases h2
      · by_cases hba : b.toNat < a.toNat
        · rw [if_neg hab, if_pos hba] at h1
          cases h1
        · rw [if_neg hab, if_neg hba] at h1
          rw [if_neg hba, if_neg hab] at h2
          have hn' : a.toNat = b.toNat := by omega
          have hc : a = b := Char.ext (UInt32.ext hn')
          rw [hc, ih h1 h2]

/-- Python string `≤` (used on sort keys). -/
def pyStrLe (a b : String) : Bool :=
  charListLe a.data b.data

theorem pyStrLe_antisymm {a b : String} (h1 : pyStrLe a b = true)
    (h2 : pyStrLe b a = true) : a = b := by
  cases a with
  | mk d1 =>
    cases b with
    | mk d2 =>
      have := @charListLe_antisymm d1 d2 h1 h2
      rw [this]

/-- The `sort_keys=True` ordering on entries. -/
def keyRel (a b : String × PyVal) : Prop :=
  pyStrLe a.1 b.1 = true

instance : DecidableRel keyRel := fun a b => inferInstanceAs (Decidable (_ = true))

instance : IsTotal (String × PyVal) keyRel :=
  ⟨fun a b => charListLe_total a.1.data b.1.data⟩

instance : IsTrans (String × PyVal) keyRel :=
  ⟨fun _ _ _ h1 h2 => charListLe_trans h1 h2⟩

/-- A stable sort of an entry list by key, modelling
`sorted(data.items())` under `sort_keys=True` (any stable sort by key
agrees with CPython's Timsort on the output order). -/
def sortByKey (es : List (String × PyVal)) : List (String × PyVal) :=
  List.insertionSort keyRel es

theorem perm_sizeOf {l₁ l₂ : List (String × PyVal)} (h : l₁.Perm l₂) :
    sizeOf l₁ = sizeOf l₂ := by
  induction h with
  | nil => rfl
  | cons x _ ih => simp [ih]
  | swap x y l => simp; omega
  | trans _ _ ih1 ih2 => omega

theorem sortByKey_perm (es : List (String × PyVal)) : (sortByKey es).Perm es :=
  List.perm_insertionSort keyRel es

mutual

/-- `json.dumps(·, sort_keys=True, separators=(",", ":"))` on the
modelled values: compact arrays and objects, object entries sorted by
key, `TypeError` on values the encoder cannot serialise
(`immutables.Map`, application objects, enum members). -/
def dumpVal : PyVal → Except PyErr (List Char)
  | .none => .ok "null".data
  | .bool true => .ok "true".data
  | .bool false => .ok "false".data
  | .int n => .ok (intChars n)
  | .str s => .ok (strChars s)
  | .list xs => do
    let chunks ← dumpList xs
    .ok ('[' :: joinComma chunks ++ [']'])
  | .tuple xs => do
    let chunks ← dumpList xs
    .ok ('[' :: joinComma chunks ++ [']'])
  | .dict es => do
    let chunks ← dumpEntries (sortByKey es)
    .ok ('{' :: joinComma chunks ++ ['}'])
  | .map _ => .error .typeError
  | .obj _ _ => .error .typeError
  | .enumMember _ _ _ => .error .typeError
termination_by v => (sizeOf v, 1)
decreasing_by
  all_goals simp_wf
  all_goals apply Prod.Lex.left
  · omega
  · omega
  · have := perm_sizeOf (sortByKey_perm es)
    omega

/-- Array elements, each rendered in turn. -/
def dumpList : List PyVal → Except PyErr (List (List Char))
  | [] => .ok []
  | x :: rest => do
    let c ← dumpVal x
    let cs ← dumpList rest
    .ok (c :: cs)
termination_by xs => (sizeOf xs, 0)
decreasing_by
  all_goals simp_wf
  all_goals apply Prod.Lex.left
  all_goals omega

/-- Object entries as `"key":value` chunks (the compact `":"` key
separator). -/
def dumpEntries : List (String × PyVal) → Except PyErr (List (List Char))
  | [] => .ok []
  | (k, v) :: rest => do
    let c ← dumpVal v
    let cs ← dumpEntries rest
    .ok ((strChars k ++ ':' :: c) :: cs)
termination_by es => (sizeOf es, 0)
decreasing_by
  all_goals simp_wf
  all_goals apply Prod.Lex.left
  all_goals omega

end

/-- `json.dumps(data, sort_keys=True, separators=(",", ":"))` as a
string. -/
def dumps (v : PyVal) : Except PyErr String :=
  (dumpVal v).map String.mk

/-- `Marshall.to_json`: serialise, then render canonically. -/
def Marshall.toJson (M : Marshall) (v : PyVal) : Except PyErr String := do
  let s ← M.serialiseData v
  dumps s

/-! Parsing: a model of `json.loads` on the grammar that the compact
renderer emits (which is exactly how `json.loads` behaves on every
string `to_json` produces; the lenient parts of the real parser —
insignificant whitespace, floats, lone `\uXXXX` surrogates — are never
produced by `dumps` and are out of scope). -/

/-- The value of a hexadecimal digit character. -/
def hexDigitVal (c : Char) : Option Nat :=
  if 48 ≤ c.toNat ∧ c.toNat ≤ 57 then some (c.toNat - 48)
  else if 97 ≤ c.toNat ∧ c.toNat ≤ 102 then some (c.toNat - 87)
  else if 65 ≤ c.toNat ∧ c.toNat ≤ 70 then some (c.toNat - 55)
  else Option.none

/-- The value of a four-digit hexadecimal escape. -/
def hexVal4 (a b c d : Char) : Option Nat := do
  let x1 ← hexDigitVal a
  let x2 ← hexDigitVal b
  let x3 ← hexDigitVal c
  let x4 ← hexDigitVal d
  pure (x1 * 4096 + x2 * 256 + x3 * 16 + x4)

/-- The short escapes of the JSON grammar. -/
def unescapeShort (c : Char) : Option Char :=
  if c = '"' then some '"'
  else if c = '\\' then some '\\'
  else if c = '/' then some '/'
  else if c = 'b' then some (Char.ofNat 8)
  else if c = 'f' then some (Char.ofNat 12)
  else if c = 'n' then some '\n'
  else if c = 'r' then some (Char.ofNat 13)
  else if c = 't' then some '\t'
  else Option.none

/-- The next four characters, when present. -/
def take4 : List Char → Option (Char × Char × Char × Char × List Char)
  | a :: b :: c :: d :: rest => some (a, b, c, d, rest)
  | _ => Option.none

/-- String-body parsing: consume characters up to the closing quote,
decoding escapes, combining surrogate pairs (as `json.loads` does).  The
fuel makes the recursion structural; one unit is spent per decoded
character, so any fuel beyond the body's length suffices. -/
def parseStr : Nat → List Char → Option (List Char × List Char)
  | 0, _ => Option.none
  | fuel + 1, cs =>
    match cs with
    | [] => Option.none
    | c :: rest =>
      if c = '"' then some ([], rest)
      else if c = '\\' then
        match rest with
        | [] => Option.none
        | e :: rest1 =>
          if e = 'u' then
            match take4 rest1 with
            | some (a, b, c3, d, rest2) =>
              match hexVal4 a b c3 d with
              | some n =>
                if 55296 ≤ n ∧ n ≤ 56319 then
                  match rest2 with
                  | bs :: u2 :: rest25 =>
                    if bs = '\\' ∧ u2 = 'u' then
                      match take4 rest25 with
                      | some (e2, f2, g2, h2, rest3) =>
                        match hexVal4 e2 f2 g2 h2 with
                        | some m =>
                          if 56320 ≤ m ∧ m ≤ 57343 then
                            (parseStr fuel rest3).map (fun p =>
                              (Char.ofNat (65536 + (n - 55296) * 1024 + (m - 56320)) :: p.1,
                                p.2))
                          else Option.none
                        | Option.none => Option.none
                      | Option.none => Option.none
                    else Option.none
                  | _ => Option.none
                else if 56320 ≤ n ∧ n ≤ 57343 then Option.none
                else (parseStr fuel rest2).map (fun p => (Char.ofNat n :: p.1, p.2))
              | Option.none => Option.none
            | Option.none => Option.none
          else
            match unescapeShort e with
            | some u => (parseStr fuel rest1).map (fun p => (u :: p.1, p.2))
            | Option.none => Option.none
      else (parseStr fuel rest).map (fun p => (c :: p.1, p.2))

/-- A decimal digit character. -/
def isDigitChar (c : Char) : Bool :=
  48 ≤ c.toNat && c.toNat ≤ 57

/-- Greedy decimal number parsing. -/
def parseNatChars (cs : List Char) : Option (Nat × List Char) :=
  match cs.takeWhile isDigitChar with
  | [] => Option.none
  | digs => some (digs.foldl (fun acc c => 10 * acc + (c.toNat - 48)) 0,
      cs.dropWhile isDigitChar)

mutual

/-- One JSON value, compact grammar; the fuel bounds recursion depth
and is decremented on every step. -/
def parseVal : Nat → List Char → Option (PyVal × List Char)
  | 0, _ => Option.none
  | fuel + 1, cs =>
    match cs with
    | [] => Option.none
    | c :: rest =>
      if c = 'n' then
        match rest with
        | 'u' :: 'l' :: 'l' :: r => some (.none, r)
        | _ => Option.none
      else if c = 't' then
        match rest with
        | 'r' :: 'u' :: 'e' :: r => some (.bool true, r)
        | _ => Option.none
      else if c = 'f' then
        match rest with
        | 'a' :: 'l' :: 's' :: 'e' :: r => some (.bool false, r)
        | _ => Option.none
      else if c = '"' then
        (parseStr fuel rest).map (fun p => (.str (String.mk p.1), p.2))
      else if c = '[' then
        match rest with
        | ']' :: r => some (.list [], r)
        | _ => (parseElems fuel rest).map (fun p => (.list p.1, p.2))
      else if c = '{' then
        match rest with
        | '}' :: r => some (.dict [], r)
        | _ => (parseEntries fuel rest).map (fun p => (.dict p.1, p.2))
      else if c = '-' then
        (parseNatChars rest).map (fun p => (.int (-(p.1 : Int)), p.2))
      else if isDigitChar c then
        (parseNatChars (c :: rest)).map (fun p => (.int (p.1 : Int), p.2))
      else Option.none

/-- Comma-separated array elements up to the closing bracket. -/
def parseElems : Nat → List Char → Option (List PyVal × List Char)
  | 0, _ => Option.none
  | fuel + 1, cs => do
    let (v, r) ← parseVal fuel cs
    match r with
    | ',' :: r2 => (parseElems fuel r2).map (fun p => (v :: p.1, p.2))
    | ']' :: r2 => some ([v], r2)
    | _ => Option.none

/-- Comma-separated `"key":value` object entries up to the closing
brace. -/
def parseEntries : Nat → List Char → Option (List (String × PyVal) × List Char)
  | 0, _ => Option.none
  | fuel + 1, cs =>
    match cs with
    | '"' :: rest => do
      let (k, r1) ← parseStr fuel rest
      match r1 with
      | ':' :: r2 => do
        let (v, r3) ← parseVal fuel r2
        match r3 with
        | ',' :: r4 => (parseEntries fuel r4).map (fun p => ((String.mk k, v) :: p.1, p.2))
        | '}' :: r4 => some ([(String.mk k, v)], r4)
        | _ => Option.none
      | _ => Option.none
    | _ => Option.none

end

/-- `json.loads`: parse the whole text or fail (`ValueError`). -/
def loads (t : String) : Option PyVal :=
  match parseVal (t.data.length + 1) t.data with
  | some (v, []) => some v
  | _ => Option.none

/-- `Marshall.from_json`: parse, then deserialise. -/
def Marshall.fromJson (M : Marshall) (t : String) : Except PyErr PyVal :=
  match loads t with
  | some tree => M.deserialiseData tree
  | Option.none => .error .valueError

/-! Round trip of the string escaping. -/

theorem hexDigitVal_hexDigitChar (d : Nat) (h : d < 16) :
    hexDigitVal (hexDigitChar d) = some d := by
  interval_cases d <;> rfl

theorem hexVal4_hexDigitChars (n : Nat) (h : n < 65536) :
    hexVal4 (hexDigitChar (n / 4096 % 16)) (hexDigitChar (n / 256 % 16))
      (hexDigitChar (n / 16 % 16)) (hexDigitChar (n % 16)) = some n := by
  have h1 := hexDigitVal_hexDigitChar (n / 4096 % 16) (by omega)
  have h2 := hexDigitVal_hexDigitChar (n / 256 % 16) (by omega)
  have h3 := hexDigitVal_hexDigitChar (n / 16 % 16) (by omega)
  have h4 := hexDigitVal_hexDigitChar (n % 16) (by omega)
  simp only [hexVal4, h1, h2, h3, h4, Bind.bind, Option.bind, pure]
  have : n / 4096 % 16 * 4096 + n / 256 % 16 * 256 + n / 16 % 16 * 16 + n % 16 = n := by
    omega
  rw [this]

theorem char_toNat_valid (c : Char) :
    c.toNat < 55296 ∨ (57343 < c.toNat ∧ c.toNat < 1114112) := by
  rcases c.valid with h | h
  · left
    exact h
  · right
    exact h

theorem parseStr_bmp (fuel : Nat) (w x y z : Char) (tail : List Char) (n : Nat)
    (hv : hexVal4 w x y z = some n) (hlo : ¬ (55296 ≤ n ∧ n ≤ 56319))
    (hlo2 : ¬ (56320 ≤ n ∧ n ≤ 57343)) :
    parseStr (fuel + 1) ('\\' :: 'u' :: w :: x :: y :: z :: tail) =
      (parseStr fuel tail).map (fun p => (Char.ofNat n :: p.1, p.2)) := by
  rw [parseStr.eq_def]
  simp only [take4, hv, if_neg hlo, if_neg hlo2, reduceIte]
  rfl

theorem parseStr_surrogate (fuel : Nat) (w x y z w2 x2 y2 z2 : Char)
    (tail : List Char) (n m : Nat) (hv : hexVal4 w x y z = some n)
    (hv2 : hexVal4 w2 x2 y2 z2 = some m) (hhi : 55296 ≤ n ∧ n ≤ 56319)
    (hlo : 56320 ≤ m ∧ m ≤ 57343) :
    parseStr (fuel + 1)
      ('\\' :: 'u' :: w :: x :: y :: z :: '\\' :: 'u' :: w2 :: x2 :: y2 :: z2 :: tail) =
      (parseStr fuel tail).map (fun p =>
        (Char.ofNat (65536 + (n - 55296) * 1024 + (m - 56320)) :: p.1, p.2)) := by
  rw [parseStr.eq_def]
  simp only [take4, hv, hv2, if_pos hhi, if_pos hlo, reduceIte, and_self]
  rfl

theorem parseStr_plain (fuel : Nat) (c : Char) (tail : List Char)
    (h1 : ¬ c = '"') (h2 : ¬ c = '\\') :
    parseStr (fuel + 1) (c :: tail) =
      (parseStr fuel tail).map (fun p => (c :: p.1, p.2)) := by
  rw [parseStr.eq_def]
  simp only [if_neg h1, if_neg h2]

theorem parseStr_escapeChar (fuel : Nat) (c : Char) (tail s rest : List Char)
    (h : parseStr fuel tail = some (s, rest)) :
    parseStr (fuel + 1) (escapeChar c ++ tail) = some (c :: s, rest) := by
  by_cases h1 : c = '\\'
  · subst h1
    rw [show escapeChar '\\' = ['\\', '\\'] from rfl]
    rw [show parseStr (fuel + 1) (['\\', '\\'] ++ tail) =
      (parseStr fuel tail).map (fun p => ('\\' :: p.1, p.2)) from rfl, h]
    rfl
  by_cases h2 : c = '"'
  · subst h2
    rw [show escapeChar '"' = ['\\', '"'] from rfl]
    rw [show parseStr (fuel + 1) (['\\', '"'] ++ tail) =
      (parseStr fuel tail).map (fun p => ('"' :: p.1, p.2)) from rfl, h]
    rfl
  by_cases h3 : c.toNat = 8
  · have hc : escapeChar c = ['\\', 'b'] := by
      unfold escapeChar
      rw [if_neg h1, if_neg h2, if_pos h3]
    rw [hc]
    rw [show parseStr (fuel + 1) (['\\', 'b'] ++ tail) =
      (parseStr fuel tail).map (fun p => (Char.ofNat 8 :: p.1, p.2)) from rfl, h]
    have : Char.ofNat 8 = c := by
      rw [← h3]
      exact Char.ofNat_toNat c
    rw [this]
    rfl
  by_cases h4 : c.toNat = 12
  · have hc : escapeChar c = ['\\', 'f'] := by
      unfold escapeChar
      rw [if_neg h1, if_neg h2, if_neg h3, if_pos h4]
    rw [hc]
    rw [show parseStr (fuel + 1) (['\\', 'f'] ++ tail) =
      (parseStr fuel tail).map (fun p => (Char.ofNat 12 :: p.1, p.2)) from rfl, h]
    have : Char.ofNat 12 = c := by
      rw [← h4]
      exact Char.ofNat_toNat c
    rw [this]
    rfl
  by_cases h5 : c = '\n'
  · subst h5
    rw [show escapeChar '\n' = ['\\', 'n'] from rfl]
    rw [show parseStr (fuel + 1) (['\\', 'n'] ++ tail) =
      (parseStr fuel tail).map (fun p => ('\n' :: p.1, p.2)) from rfl, h]
    rfl
  by_cases h6 : c.toNat = 13
  · have hc : escapeChar c = ['\\', 'r'] := by
      unfold escapeChar
      rw [if_neg h1, if_neg h2, if_neg h3, if_neg h4, if_neg h5, if_pos h6]
    rw [hc]
    rw [show parseStr (fuel + 1) (['\\', 'r'] ++ tail) =
      (parseStr fuel tail).map (fun p => (Char.ofNat 13 :: p.1, p.2)) from rfl, h]
    have : Char.ofNat 13 = c := by
      rw [← h6]
      exact Char.ofNat_toNat c
    rw [this]
    rfl
  by_cases h7 : c = '\t'
  · subst h7
    rw [show escapeChar '\t' = ['\\', 't'] from rfl]
    rw [show parseStr (fuel + 1) (['\\', 't'] ++ tail) =
      (parseStr fuel tail).map (fun p => ('\t' :: p.1, p.2)) from rfl, h]
    rfl
  by_cases h8 : 32 ≤ c.toNat ∧ c.toNat ≤ 126
  · have hc : escapeChar c = [c] := by
      unfold escapeChar
      rw [if_neg h1, if_neg h2, if_neg h3, if_neg h4, if_neg h5, if_neg h6, if_neg h7,
        if_pos (by simpa using h8)]
    rw [hc, List.cons_append, List.nil_append]
    rw [parseStr_plain fuel c tail h2 h1, h]
    rfl
  by_cases h9 : c.toNat < 65536
  · have hc : escapeChar c = '\\' :: 'u' :: hex4 c.toNat := by
      unfold escapeChar
      rw [if_neg h1, if_neg h2, if_neg h3, if_neg h4, if_neg h5, if_neg h6, if_neg h7,
        if_neg (by simpa using h8), if_pos h9]
    have hval := char_toNat_valid c
    have hnothi : ¬ (55296 ≤ c.toNat ∧ c.toNat ≤ 56319) := by omega
    have hnotlo : ¬ (56320 ≤ c.toNat ∧ c.toNat ≤ 57343) := by omega
    rw [hc]
    rw [show ('\\' :: 'u' :: hex4 c.toNat ++ tail) =
      '\\' :: 'u' :: hexDigitChar (c.toNat / 4096 % 16) :: hexDigitChar (c.toNat / 256 % 16) ::
        hexDigitChar (c.toNat / 16 % 16) :: hexDigitChar (c.toNat % 16) :: tail from rfl]
    rw [parseStr_bmp fuel _ _ _ _ tail c.toNat (hexVal4_hexDigitChars c.toNat h9)
      hnothi hnotlo, h]
    rw [Char.ofNat_toNat c]
    rfl
  · have hc : escapeChar c =
        ('\\' :: 'u' :: hex4 (55296 + (c.toNat - 65536) / 1024)) ++
        ('\\' :: 'u' :: hex4 (56320 + (c.toNat - 65536) % 1024)) := by
      unfold escapeChar
      rw [if_neg h1, if_neg h2, if_neg h3, if_neg h4, if_neg h5, if_neg h6, if_neg h7,
        if_neg (by simpa using h8), if_neg h9]
    have hval := char_toNat_valid c
    have hdivlt : (c.toNat - 65536) / 1024 < 1024 := by omega
    have hhiv : 55296 + (c.toNat - 65536) / 1024 < 65536 := by omega
    have hlov : 56320 + (c.toNat - 65536) % 1024 < 65536 := by omega
    rw [hc]
    rw [show ((('\\' :: 'u' :: hex4 (55296 + (c.toNat - 65536) / 1024)) ++
        ('\\' :: 'u' :: hex4 (56320 + (c.toNat - 65536) % 1024))) ++ tail) =
      '\\' :: 'u' ::
        hexDigitChar ((55296 + (c.toNat - 65536) / 1024) / 4096 % 16) ::
        hexDigitChar ((55296 + (c.toNat - 65536) / 1024) / 256 % 16) ::
        hexDigitChar ((55296 + (c.toNat - 65536) / 1024) / 16 % 16) ::
        hexDigitChar ((55296 + (c.toNat - 65536) / 1024) % 16) ::
      '\\' :: 'u' ::
        hexDigitChar ((56320 + (c.toNat - 65536) % 1024) / 4096 % 16) ::
        hexDigitChar ((56320 + (c.toNat - 65536) % 1024) / 256 % 16) ::
        hexDigitChar ((56320 + (c.toNat - 65536) % 1024) / 16 % 16) ::
        hexDigitChar ((56320 + (c.toNat - 65536) % 1024) % 16) :: tail from rfl]
    rw [parseStr_surrogate fuel _ _ _ _ _ _ _ _ tail _ _
      (hexVal4_hexDigitChars _ hhiv) (hexVal4_hexDigitChars _ hlov)
      (by omega) (by omega), h]
    have harg : 65536 + (55296 + (c.toNat - 65536) / 1024 - 55296) * 1024 +
        (56320 + (c.toNat - 65536) % 1024 - 56320) = c.toNat := by
      omega
    rw [harg, Char.ofNat_toNat c]
    rfl

theorem parseStr_strChars (d : List Char) (rest : List Char) :
    ∀ fuel, d.length + 1 ≤ fuel →
      parseStr fuel ((d.map escapeChar).flatten ++ '"' :: rest) = some (d, rest) := by
  induction d with
  | nil =>
    intro fuel hf
    match fuel, hf with
    | f + 1, _ => rfl
  | cons c d ih =>
    intro fuel hf
    match fuel, hf with
    | f + 1, hf =>
      rw [List.map_cons, List.flatten_cons, List.append_assoc]
      exact parseStr_escapeChar f c _ d rest (ih f (by simpa using Nat.le_of_succ_le_succ hf))

/-! Round trip of decimal numbers. -/

theorem charOfNat_toNat_small {m : Nat} (h : m < 55296) :
    (Char.ofNat m).toNat = m := by
  have hv : m.isValidChar := Or.inl h
  simp [Char.ofNat, hv, Char.toNat, Char.ofNatAux, UInt32.toNat, BitVec.toNat_ofNatLt]

theorem natDigitsLE_eq_digits : ∀ fuel n, n ≤ fuel → natDigitsLE fuel n = Nat.digits 10 n := by
  intro fuel
  induction fuel with
  | zero =>
    intro n h
    interval_cases n
    simp [natDigitsLE]
  | succ f ih =>
    intro n h
    rw [natDigitsLE]
    by_cases h0 : n = 0
    · subst h0
      simp
    · have hpos : 0 < n := Nat.pos_of_ne_zero h0
      have hdiv : n / 10 < n := Nat.div_lt_self hpos (by norm_num)
      rw [if_neg h0, Nat.digits_def' (by norm_num : (1 : Nat) < 10) hpos,
        ih (n / 10) (by omega)]

theorem natChars_all_digits (n : Nat) : ∀ c ∈ natChars n, isDigitChar c = true := by
  intro c hc
  unfold natChars at hc
  by_cases h0 : n = 0
  · subst h0
    simp at hc
    subst hc
    rfl
  · rw [if_neg h0, natDigitsLE_eq_digits n n le_rfl] at hc
    simp only [List.mem_map, List.mem_reverse] at hc
    obtain ⟨d, hd, rfl⟩ := hc
    have hlt : d < 10 := Nat.digits_lt_base (by norm_num) hd
    have ht : (Char.ofNat (48 + d)).toNat = 48 + d := charOfNat_toNat_small (by omega)
    simp only [isDigitChar, ht]
    simp only [decide_eq_true_eq, Bool.and_eq_true]
    omega

theorem natChars_nonempty (n : Nat) : natChars n ≠ [] := by
  unfold natChars
  by_cases h0 : n = 0
  · subst h0
    simp
  · rw [if_neg h0]
    have hpos : 0 < n := Nat.pos_of_ne_zero h0
    rw [natDigitsLE_eq_digits n n le_rfl]
    simp [Nat.digits_ne_nil_iff_ne_zero, h0]

/-- The continuation after a rendered number must not start with a
digit (in rendered JSON it is `,`, `]`, `}` or the end). -/
def headNotDigit (rest : List Char) : Prop :=
  ∀ c cs, rest = c :: cs → isDigitChar c = false

theorem takeWhile_all_append {p : Char → Bool} {l rest : List Char}
    (h : ∀ c ∈ l, p c = true)
    (h2 : ∀ c cs, rest = c :: cs → p c = false) :
    (l ++ rest).takeWhile p = l ∧ (l ++ rest).dropWhile p = rest := by
  induction l with
  | nil =>
    simp only [List.nil_append]
    cases rest with
    | nil => exact ⟨rfl, rfl⟩
    | cons c cs =>
      simp only [List.takeWhile_cons, List.dropWhile_cons]
      rw [h2 c cs rfl]
      exact ⟨rfl, rfl⟩
  | cons c l ih =>
    have hc := h c (by simp)
    have := ih (fun x hx => h x (by simp [hx]))
    simp only [List.cons_append, List.takeWhile_cons, List.dropWhile_cons, hc]
    simp only [this.1, this.2]
    exact ⟨rfl, rfl⟩

theorem foldr_congr_mem {l : List Nat} {f g : Nat → Nat → Nat}
    (h : ∀ d ∈ l, ∀ a, f d a = g d a) : l.foldr f 0 = l.foldr g 0 := by
  induction l with
  | nil => rfl
  | cons d t ih =>
    rw [List.foldr_cons, List.foldr_cons, h d (by simp) _,
      ih (fun x hx a => h x (by simp [hx]) a)]

theorem foldr_eq_ofDigits (l : List Nat) :
    l.foldr (fun d a => 10 * a + d) 0 = Nat.ofDigits 10 l := by
  induction l with
  | nil => rfl
  | cons d l ih =>
    rw [List.foldr_cons, ih, Nat.ofDigits_cons]
    push_cast
    ring

theorem foldl_natChars (n : Nat) :
    (natChars n).foldl (fun acc c => 10 * acc + (c.toNat - 48)) 0 = n := by
  unfold natChars
  by_cases h0 : n = 0
  · subst h0
    rfl
  · rw [if_neg h0, natDigitsLE_eq_digits n n le_rfl]
    rw [List.foldl_map, List.foldl_reverse]
    have : (Nat.digits 10 n).foldr
        (fun (x : Nat) (a : Nat) => 10 * a + ((Char.ofNat (48 + x)).toNat - 48)) 0 =
        (Nat.digits 10 n).foldr (fun (x : Nat) (a : Nat) => 10 * a + x) 0 := by
      refine foldr_congr_mem ?_
      intro d hd a
      have hlt : d < 10 := Nat.digits_lt_base (by norm_num) hd
      rw [charOfNat_toNat_small (show 48 + d < 55296 by omega)]
      omega
    rw [this, foldr_eq_ofDigits, Nat.ofDigits_digits]

theorem parseNatChars_natChars (n : Nat) (rest : List Char) (h : headNotDigit rest) :
    parseNatChars (natChars n ++ rest) = some (n, rest) := by
  have hall := natChars_all_digits n
  obtain ⟨ht, hd⟩ := takeWhile_all_append hall h
  unfold parseNatChars
  rw [ht, hd]
  have hne := natChars_nonempty n
  have hf := foldl_natChars n
  cases hch : natChars n with
  | nil => exact absurd hch hne
  | cons c cs =>
    rw [hch] at hf
    show some (List.foldl (fun acc c => 10 * acc + (c.toNat - 48)) 0 (c :: cs), rest) =
      some (n, rest)
    rw [hf]

/-! The JSON fragment of `PyVal`: the shapes `serialise_data` can emit
and `json.dumps` can render (tuples are rendered as arrays but parse
back as lists, so they are outside the fragment). -/

mutual

/-- Membership in the JSON fragment. -/
def isJsonTree : PyVal → Bool
  | .none => true
  | .bool _ => true
  | .int _ => true
  | .str _ => true
  | .list xs => isJsonTreeList xs
  | .dict es => isJsonTreeEntries es
  | .tuple _ => false
  | .map _ => false
  | .obj _ _ => false
  | .enumMember _ _ _ => false
termination_by v => (sizeOf v, 1)
decreasing_by
  all_goals simp_wf
  all_goals apply Prod.Lex.left
  all_goals omega

/-- `isJsonTree` over array elements. -/
def isJsonTreeList : List PyVal → Bool
  | [] => true
  | x :: rest => isJsonTree x && isJsonTreeList rest
termination_by xs => (sizeOf xs, 0)
decreasing_by
  all_goals simp_wf
  all_goals apply Prod.Lex.left
  all_goals omega

/-- `isJsonTree` over entry values. -/
def isJsonTreeEntries : List (String × PyVal) → Bool
  | [] => true
  | (_, v) :: rest => isJsonTree v && isJsonTreeEntries rest
termination_by es => (sizeOf es, 0)
decreasing_by
  all_goals simp_wf
  all_goals apply Prod.Lex.left
  all_goals omega

end

mutual

/-- A recursion budget sufficient for `parseVal` on the rendering of a
tree (each parser step spends one unit). -/
def jfuel : PyVal → Nat
  | .none => 1
  | .bool _ => 1
  | .int _ => 1
  | .str s => s.data.length + 2
  | .list xs => 1 + jfuelList xs
  | .dict es => 1 + jfuelEntries es
  | .tuple _ => 0
  | .map _ => 0
  | .obj _ _ => 0
  | .enumMember _ _ _ => 0
termination_by v => (sizeOf v, 1)
decreasing_by
  all_goals simp_wf
  all_goals apply Prod.Lex.left
  all_goals omega

/-- Budget for an element list (an extra unit per element step). -/
def jfuelList : List PyVal → Nat
  | [] => 0
  | x :: rest => jfuel x + 1 + jfuelList rest
termination_by xs => (sizeOf xs, 0)
decreasing_by
  all_goals simp_wf
  all_goals apply Prod.Lex.left
  all_goals omega

/-- Budget for an entry list (key step, value, and the element step). -/
def jfuelEntries : List (String × PyVal) → Nat
  | [] => 0
  | (k, v) :: rest => k.data.length + 1 + jfuel v + 1 + jfuelEntries rest
termination_by es => (sizeOf es, 0)
decreasing_by
  all_goals simp_wf
  all_goals apply Prod.Lex.left
  all_goals omega

end

theorem strEta (s : String) : String.mk s.data = s := by
  cases s
  rfl

theorem isJsonTreeEntries_mem (l : List (String × PyVal)) :
    isJsonTreeEntries l = true ↔ ∀ p ∈ l, isJsonTree p.2 = true := by
  induction l with
  | nil => simp [isJsonTreeEntries]
  | cons p rest ih =>
    rcases p with ⟨k, v⟩
    rw [isJsonTreeEntries]
    simp only [Bool.and_eq_true, ih, List.mem_cons]
    constructor
    · rintro ⟨h1, h2⟩ q (rfl | hq)
      · exact h1
      · exact h2 q hq
    · intro h
      exact ⟨h (k, v) (Or.inl rfl), fun q hq => h q (Or.inr hq)⟩

theorem jfuelEntries_perm {l₁ l₂ : List (String × PyVal)} (h : l₁.Perm l₂) :
    jfuelEntries l₁ = jfuelEntries l₂ := by
  induction h with
  | nil => rfl
  | cons x _ ih =>
    rcases x with ⟨k, v⟩
    rw [jfuelEntries, jfuelEntries, ih]
  | swap x y l =>
    rcases x with ⟨k1, v1⟩
    rcases y with ⟨k2, v2⟩
    rw [jfuelEntries, jfuelEntries, jfuelEntries, jfuelEntries]
    omega
  | trans _ _ ih1 ih2 => omega

set_option maxHeartbeats 1600000 in
theorem parseVal_intChars (fuel : Nat) (n : Int) (rest : List Char)
    (h : headNotDigit rest) :
    parseVal (fuel + 1) (intChars n ++ rest) = some (.int n, rest) := by
  unfold intChars
  by_cases hneg : n < 0
  · rw [if_pos hneg, List.cons_append]
    rw [parseVal.eq_def]
    simp only [if_neg (show ¬ ('-' : Char) = 'n' by decide),
      if_neg (show ¬ ('-' : Char) = 't' by decide),
      if_neg (show ¬ ('-' : Char) = 'f' by decide),
      if_neg (show ¬ ('-' : Char) = '"' by decide),
      if_neg (show ¬ ('-' : Char) = '[' by decide),
      if_neg (show ¬ ('-' : Char) = '{' by decide),
      if_pos (rfl : ('-' : Char) = '-'), if_true]
    rw [parseNatChars_natChars n.natAbs rest h]
    have : -(n.natAbs : Int) = n := by omega
    rw [Option.map_some', this]
  · rw [if_neg hneg]
    have hne := natChars_nonempty n.natAbs
    have hall := natChars_all_digits n.natAbs
    cases hch : natChars n.natAbs with
    | nil => exact absurd hch hne
    | cons c cs =>
      have hdig : isDigitChar c = true := by
        rw [hch] at hall
        exact hall c (by simp)
      have hcn : 48 ≤ c.toNat ∧ c.toNat ≤ 57 := by
        simpa [isDigitChar, Bool.and_eq_true, decide_eq_true_eq] using hdig
      have hd1 : ¬ c = 'n' := fun he => absurd hcn (by rw [he]; decide)
      have hd2 : ¬ c = 't' := fun he => absurd hcn (by rw [he]; decide)
      have hd3 : ¬ c = 'f' := fun he => absurd hcn (by rw [he]; decide)
      have hd4 : ¬ c = '"' := fun he => absurd hcn (by rw [he]; decide)
      have hd5 : ¬ c = '[' := fun he => absurd hcn (by rw [he]; decide)
      have hd6 : ¬ c = '{' := fun he => absurd hcn (by rw [he]; decide)
      have hd7 : ¬ c = '-' := fun he => absurd hcn (by rw [he]; decide)
      rw [List.cons_append]
      rw [parseVal.eq_def]
      simp only []
      rw [if_neg hd1, if_neg hd2, if_neg hd3, if_neg hd4, if_neg hd5,
        if_neg hd6, if_neg hd7, if_pos hdig]
      have hrw : c :: (cs ++ rest) = natChars n.natAbs ++ rest := by
        rw [hch]
        rfl
      rw [hrw, parseNatChars_natChars n.natAbs rest h]
      have : (n.natAbs : Int) = n := by omega
      rw [Option.map_some', this]

/-! Equation helpers for the renderer. -/

theorem dumpVal_none : dumpVal .none = .ok "null".data := by
  rw [dumpVal]

theorem dumpVal_true : dumpVal (.bool true) = .ok "true".data := by
  rw [dumpVal]

theorem dumpVal_false : dumpVal (.bool false) = .ok "false".data := by
  rw [dumpVal]

theorem dumpVal_int (n : Int) : dumpVal (.int n) = .ok (intChars n) := by
  rw [dumpVal]

theorem dumpVal_str (s : String) : dumpVal (.str s) = .ok (strChars s) := by
  rw [dumpVal]

theorem dumpVal_list_ok {xs : List PyVal} {chunks : List (List Char)}
    (h : dumpList xs = .ok chunks) :
    dumpVal (.list xs) = .ok ('[' :: joinComma chunks ++ [']']) := by
  rw [dumpVal, h]
  rfl

theorem dumpVal_dict_ok {es : List (String × PyVal)} {chunks : List (List Char)}
    (h : dumpEntries (sortByKey es) = .ok chunks) :
    dumpVal (.dict es) = .ok ('{' :: joinComma chunks ++ ['}']) := by
  rw [dumpVal, h]
  rfl

theorem dumpList_nil : dumpList [] = .ok [] := by
  rw [dumpList]

theorem dumpList_cons_ok {x : PyVal} {xs : List PyVal} {chunks : List (List Char)}
    (h : dumpList (x :: xs) = .ok chunks) :
    ∃ c cs, dumpVal x = .ok c ∧ dumpList xs = .ok cs ∧ chunks = c :: cs := by
  rw [dumpList] at h
  simp only [Bind.bind, Except.bind] at h
  rcases h1 : dumpVal x with e | c <;> rw [h1] at h
  · cases h
  · rcases h2 : dumpList xs with e | cs <;> rw [h2] at h
    · cases h
    · cases h
      exact ⟨c, cs, rfl, rfl, rfl⟩

theorem dumpEntries_cons_ok {k : String} {v : PyVal} {es : List (String × PyVal)}
    {chunks : List (List Char)} (h : dumpEntries ((k, v) :: es) = .ok chunks) :
    ∃ c cs, dumpVal v = .ok c ∧ dumpEntries es = .ok cs ∧
      chunks = (strChars k ++ ':' :: c) :: cs := by
  rw [dumpEntries] at h
  simp only [Bind.bind, Except.bind] at h
  rcases h1 : dumpVal v with e | c <;> rw [h1] at h
  · cases h
  · rcases h2 : dumpEntries es with e | cs <;> rw [h2] at h
    · cases h
    · cases h
      exact ⟨c, cs, rfl, rfl, rfl⟩

theorem dumpEntries_nil : dumpEntries [] = .ok [] := by
  rw [dumpEntries]

theorem dumpVal_list_inv {xs : List PyVal} {cs : List Char}
    (h : dumpVal (.list xs) = .ok cs) :
    ∃ chunks, dumpList xs = .ok chunks ∧ cs = '[' :: joinComma chunks ++ [']'] := by
  rw [dumpVal] at h
  simp only [Bind.bind, Except.bind] at h
  rcases h1 : dumpList xs with e | chunks <;> rw [h1] at h
  · cases h
  · cases h
    exact ⟨chunks, rfl, rfl⟩

theorem dumpVal_dict_inv {es : List (String × PyVal)} {cs : List Char}
    (h : dumpVal (.dict es) = .ok cs) :
    ∃ chunks, dumpEntries (sortByKey es) = .ok chunks ∧
      cs = '{' :: joinComma chunks ++ ['}'] := by
  rw [dumpVal] at h
  simp only [Bind.bind, Except.bind] at h
  rcases h1 : dumpEntries (sortByKey es) with e | chunks <;> rw [h1] at h
  · cases h
  · cases h
    exact ⟨chunks, rfl, rfl⟩

theorem escapeChar_length_pos (c : Char) : 1 ≤ (escapeChar c).length := by
  unfold escapeChar
  split_ifs <;> simp [hex4]

theorem flatten_escape_length (l : List Char) :
    l.length ≤ ((l.map escapeChar).flatten).length := by
  induction l with
  | nil => simp
  | cons c t ih =>
    rw [List.map_cons, List.flatten_cons, List.length_append, List.length_cons]
    have := escapeChar_length_pos c
    omega

theorem strChars_length (s : String) : s.data.length + 2 ≤ (strChars s).length := by
  unfold strChars
  rw [List.length_append, List.length_cons]
  have := flatten_escape_length s.data
  simp only [List.length_cons, List.length_nil]
  omega

theorem intChars_ne_nil (n : Int) : intChars n ≠ [] := by
  unfold intChars
  split_ifs
  · simp
  · exact natChars_nonempty n.natAbs

theorem jfuel_pos {t : PyVal} (h : isJsonTree t = true) : 1 ≤ jfuel t := by
  cases t <;> rw [jfuel] <;> first | omega | (rw [isJsonTree] at h; cases h)

theorem joinComma_nil : joinComma [] = [] := rfl

theorem joinComma_single (c : List Char) : joinComma [c] = c := by
  simp [joinComma]

theorem joinComma_cons (c : List Char) (c2 : List Char) (cs : List (List Char)) :
    joinComma (c :: c2 :: cs) = c ++ ',' :: joinComma (c2 :: cs) := by
  simp only [joinComma, List.intersperse]
  rfl

/-- The first character of any rendered JSON value (used to rule out
the empty-container lookahead branches). -/
theorem dumpVal_head {t : PyVal} {cs : List Char} (hT : isJsonTree t = true)
    (hd : dumpVal t = .ok cs) :
    ∃ hc cs', cs = hc :: cs' ∧ ¬ hc = ']' ∧ ¬ hc = '}' := by
  cases t with
  | none =>
    rw [dumpVal_none] at hd
    cases hd
    exact ⟨'n', _, rfl, by decide, by decide⟩
  | bool b =>
    cases b
    · rw [dumpVal_false] at hd
      cases hd
      exact ⟨'f', _, rfl, by decide, by decide⟩
    · rw [dumpVal_true] at hd
      cases hd
      exact ⟨'t', _, rfl, by decide, by decide⟩
  | int n =>
    rw [dumpVal_int] at hd
    cases hd
    unfold intChars
    by_cases hneg : n < 0
    · rw [if_pos hneg]
      exact ⟨'-', _, rfl, by decide, by decide⟩
    · rw [if_neg hneg]
      have hne := natChars_nonempty n.natAbs
      have hall := natChars_all_digits n.natAbs
      cases hch : natChars n.natAbs with
      | nil => exact absurd hch hne
      | cons c cs2 =>
        have hdig : isDigitChar c = true := by
          rw [hch] at hall
          exact hall c (by simp)
        have hcn : 48 ≤ c.toNat ∧ c.toNat ≤ 57 := by
          simpa [isDigitChar, Bool.and_eq_true, decide_eq_true_eq] using hdig
        exact ⟨c, cs2, rfl,
          fun he => absurd hcn (by rw [he]; decide),
          fun he => absurd hcn (by rw [he]; decide)⟩
  | str s =>
    rw [dumpVal_str] at hd
    cases hd
    exact ⟨'"', _, rfl, by decide, by decide⟩
  | list xs =>
    rw [dumpVal] at hd
    simp only [Bind.bind, Except.bind] at hd
    rcases h1 : dumpList xs with e | chunks <;> rw [h1] at hd
    · cases hd
    · cases hd
      exact ⟨'[', _, rfl, by decide, by decide⟩
  | dict es =>
    rw [dumpVal] at hd
    simp only [Bind.bind, Except.bind] at hd
    rcases h1 : dumpEntries (sortByKey es) with e | chunks <;> rw [h1] at hd
    · cases hd
    · cases hd
      exact ⟨'{', _, rfl, by decide, by decide⟩
  | tuple xs => rw [isJsonTree] at hT; cases hT
  | map es => rw [isJsonTree] at hT; cases hT
  | obj c f => rw [isJsonTree] at hT; cases hT
  | enumMember c n v => rw [isJsonTree] at hT; cases hT

/-! Dispatch shapes of the parser at one unit of fuel. -/

theorem parseVal_quote (f : Nat) (T : List Char) :
    parseVal (f + 1) ('"' :: T) =
      (parseStr f T).map (fun p => (.str (String.mk p.1), p.2)) := rfl

theorem parseVal_bracket_nil (f : Nat) (r : List Char) :
    parseVal (f + 1) ('[' :: ']' :: r) = some (PyVal.list [], r) := rfl

theorem parseVal_brace_nil (f : Nat) (r : List Char) :
    parseVal (f + 1) ('{' :: '}' :: r) = some (PyVal.dict [], r) := rfl

theorem parseVal_bracket (f : Nat) (hc : Char) (T : List Char) (h : ¬ hc = ']') :
    parseVal (f + 1) ('[' :: hc :: T) =
      (parseElems f (hc :: T)).map (fun p => (.list p.1, p.2)) := by
  have h0 : parseVal (f + 1) ('[' :: hc :: T) =
      (match hc :: T with
       | ']' :: r => some (.list [], r)
       | _ => (parseElems f (hc :: T)).map (fun p => (.list p.1, p.2))) := rfl
  rw [h0]
  split
  · next r0 r heq =>
      injection heq with h1 h2
      exact absurd h1 h
  · next r0 hx => rfl

theorem parseVal_brace (f : Nat) (hc : Char) (T : List Char) (h : ¬ hc = '}') :
    parseVal (f + 1) ('{' :: hc :: T) =
      (parseEntries f (hc :: T)).map (fun p => (.dict p.1, p.2)) := by
  have h0 : parseVal (f + 1) ('{' :: hc :: T) =
      (match hc :: T with
       | '}' :: r => some (.dict [], r)
       | _ => (parseEntries f (hc :: T)).map (fun p => (.dict p.1, p.2))) := rfl
  rw [h0]
  split
  · next r0 r heq =>
      injection heq with h1 h2
      exact absurd h1 h
  · next r0 hx => rfl

theorem parseElems_succ (f : Nat) (cs : List Char) :
    parseElems (f + 1) cs = (do
      let (v, r) ← parseVal f cs
      match r with
      | ',' :: r2 => (parseElems f r2).map (fun p => (v :: p.1, p.2))
      | ']' :: r2 => some ([v], r2)
      | _ => Option.none) := rfl

theorem parseEntries_quote (f : Nat) (T : List Char) :
    parseEntries (f + 1) ('"' :: T) = (do
      let (k, r1) ← parseStr f T
      match r1 with
      | ':' :: r2 => do
        let (v, r3) ← parseVal f r2
        match r3 with
        | ',' :: r4 => (parseEntries f r4).map (fun p => ((String.mk k, v) :: p.1, p.2))
        | '}' :: r4 => some ([(String.mk k, v)], r4)
        | _ => Option.none
      | _ => Option.none) := rfl

theorem headNotDigit_cons (c : Char) (h : isDigitChar c = false) (r : List Char) :
    headNotDigit (c :: r) := by
  intro c2 cs hh
  injection hh with h1 h2
  rw [← h1]
  exact h

theorem list_sizeOf_pos {α : Type} [SizeOf α] (l : List α) : 1 ≤ sizeOf l := by
  cases l with
  | nil => simp
  | cons a t =>
    have h : sizeOf (a :: t) = 1 + sizeOf a + sizeOf t := by simp
    omega

theorem append_wrap (a : Char) (L : List Char) (b : Char) (rest : List Char) :
    (a :: L ++ [b]) ++ rest = a :: (L ++ b :: rest) := by
  simp

theorem joinComma_head (c : Char) (cs0 : List Char) (tail : List (List Char)) :
    ∃ T, joinComma ((c :: cs0) :: tail) = c :: T := by
  cases tail with
  | nil => exact ⟨cs0, by rw [joinComma_single]⟩
  | cons c2 ct =>
    exact ⟨cs0 ++ ',' :: joinComma (c2 :: ct), by rw [joinComma_cons]; rfl⟩

/-! Decode-side node classification (the guard chain of
`deserialise_data` on a mapping) and the reserved envelope keys. -/

/-- The four classes a decoded mapping node can take. -/
inductive NodeClass where
  | enumEnvelope
  | objectEnvelope
  | codecEnvelope
  | plainMapping
  deriving DecidableEq

/-- The decode-side classification of a mapping node, in the source's
guard order: `_is_enum_dict`, then `_is_serialised_class`, then
`_requires_codec`, then the plain-mapping fallback. -/
def classifyNode (es : List (String × PyVal)) : NodeClass :=
  if ((es.lookup "_value_").isSome && (es.lookup "_name_").isSome) then .enumEnvelope
  else if (es.lookup "__fqn__").isSome then .objectEnvelope
  else if (es.lookup "__codec__").isSome then .codecEnvelope
  else .plainMapping

/-- The reserved keys that drive classification. -/
def classificationKeys : List String := ["_name_", "_value_", "__fqn__", "__codec__"]

/-- The optional metadata keys of an Object Envelope. -/
def metadataKeys : List String := ["__version__", "__msgid__", "__timestamp__"]

/-- Every reserved envelope key of the wire format (the string literals
of `marshall.py`): type identifier, metadata, codec name, codec payload,
and the enum member name/value keys. -/
def reservedEnvelopeKeys : List String :=
  ["__fqn__", "__version__", "__msgid__", "__timestamp__", "__codec__", "params",
   "_name_", "_value_"]

/-- The underscore marker convention: a key both starting and ending
with the `_` marker. -/
def markerKey (k : String) : Bool :=
  pyStartsWith k "_" && pyEndsWith k "_"

/-- Mutable builtin containers among the modelled shapes: `list` and
`dict` (tuples and `immutables.Map` are immutable; objects are not
containers). -/
def isMutableContainer : PyVal → Bool
  | .list _ => true
  | .dict _ => true
  | _ => false

/-- A mutable mapping, i.e. a plain `dict`. -/
def isMutableMapping : PyVal → Bool
  | .dict _ => true
  | _ => false

/-! A heap picture of the encode-side recursion, for the cycle claim:
Python objects live at addresses, a list holds addresses of its
elements, and an object graph may be cyclic.  `serialiseSteps` walks the
graph exactly as `serialise_data` walks its argument — with no visited
set — counting recursion depth against a stack budget. -/

/-- A heap node: an `int` leaf or a list of element addresses. -/
inductive HNode where
  | leaf (v : Int)
  | seqNode (elems : List Nat)

/-- An object heap. -/
def Heap : Type := Nat → HNode

/-- `serialise_data` on the heap picture: recurse into every element of
a sequence, spending one stack frame per call; `Option.none` is the
interpreter's `RecursionError` once the budget is exhausted.  The walk
tracks no visited identities, mirroring the source. -/
def serialiseSteps (h : Heap) : Nat → Nat → Option PyVal
  | 0, _ => Option.none
  | fuel + 1, a =>
    match h a with
    | .leaf v => some (.int v)
    | .seqNode elems => (elems.mapM (serialiseSteps h fuel)).map PyVal.list

/-- The one-object cyclic heap of `l = []; l.append(l)`: the list at
address 0 whose sole element is itself. -/
def cyclicHeap : Heap := fun _ => .seqNode [0]

/-! Claim theorems. -/

theorem find?_isSome_eq_any (l : List (String × MCodec)) (p : String × MCodec → Bool) :
    (l.find? p).isSome = l.any p := by
  induction l with
  | nil => rfl
  | cons x rest ih =>
    rw [List.find?, List.any]
    cases hx : p x with
    | true => simp
    | false => simpa using ih

/-- C3: `_get_fqn` resolves by exact lookup first; only on a miss, for a
key with a `.` separator not itself ending in `*`, is the final segment
replaced by `*` and the lookup retried, the original final segment being
appended back onto the matched prefix; if neither lookup succeeds an
error is raised.  With only `{"a.b.*": "x.y.*"}`, `"a.b.Foo"` resolves
to `"x.y.Foo"`; an exact entry beats the wildcard covering the same
prefix; the instance-to-public direction mirrors this. -/
theorem c3_resolver_wildcard_precedence :
    (∀ (r : FqnResolver) (key : String) (pub : Bool) (v : String),
      r.lookupFqn key pub = .ok v → r.getFqn key pub = .ok v)
    ∧ (∀ (r : FqnResolver) (key : String) (pub : Bool) (e : PyErr) (p : String),
      r.lookupFqn key pub = .error e → key ≠ "" → key.back ≠ '*' →
      key.data.contains '.' = true → r.lookupFqn (starKey key) pub = .ok p →
      r.getFqn key pub = .ok (p.dropRight 1 ++ lastSegment key))
    ∧ (∀ (r : FqnResolver) (key : String) (pub : Bool) (e : PyErr),
      r.lookupFqn key pub = .error e →
      (∀ p, r.lookupFqn (starKey key) pub ≠ .ok p) →
      ∃ e', r.getFqn key pub = .error e')
    ∧ (FqnResolver.mk [("a.b.*", "x.y.*")]).getFqn "a.b.Foo" true = .ok "x.y.Foo"
    ∧ (FqnResolver.mk [("a.b.Foo", "x.y.Special"), ("a.b.*", "x.y.*")]).getFqn
        "a.b.Foo" true = .ok "x.y.Special"
    ∧ (FqnResolver.mk [("a.b.*", "x.y.*")]).instanceToFqn "x.y.Bar" = .ok "a.b.Bar"
    ∧ (FqnResolver.mk []).getFqn "a.b.Foo" true = .error (.keyError "a.b.*") := by
  refine ⟨?_, ?_, ?_, rfl, rfl, rfl, rfl⟩
  · intro r key pub v h
    simp only [FqnResolver.getFqn, h]
  · intro r key pub e p h h1 h2 h3 h4
    simp only [FqnResolver.getFqn, h, if_neg h1]
    rw [if_pos ⟨h2, h3⟩, h4]
  · intro r key pub e h h2
    simp only [FqnResolver.getFqn, h]
    by_cases hk : key = ""
    · rw [if_pos hk]
      exact ⟨.indexError, rfl⟩
    · rw [if_neg hk]
      by_cases hg : key.back ≠ '*' ∧ key.data.contains '.'
      · rw [if_pos hg]
        cases hw : r.lookupFqn (starKey key) pub with
        | ok q => exact absurd hw (h2 q)
        | error e2 => exact ⟨e2, rfl⟩
      · rw [if_neg hg]
        exact ⟨e, rfl⟩

/-- C3 witness: the wildcard-fallback clause applied at the concrete
single-entry wildcard map. -/
theorem c3_witness :
    (FqnResolver.mk [("a.b.*", "x.y.*")]).getFqn "a.b.Foo" true =
      .ok ("x.y.*".dropRight 1 ++ lastSegment "a.b.Foo") :=
  c3_resolver_wildcard_precedence.2.1 (FqnResolver.mk [("a.b.*", "x.y.*")])
    "a.b.Foo" true (.keyError "a.b.Foo") "x.y.*" rfl (by decide) (by decide)
    (by decide) rfl

/-- C4: whenever some registered codec's `handles` predicate accepts the
value, `serialise_data` returns the `serialise` output of the first
matching codec in registration order — before any sequence, mapping,
primitive or generic-object handling is considered. -/
theorem c4_codec_precedence (M : Marshall) (v : PyVal) (c : String × MCodec)
    (h : M.codecs.find? (fun p => p.2.handles v) = some c) :
    M.serialiseData v = .ok (c.2.serialise v) := by
  have hAny : M.isHandledByCodec v = true := by
    rw [Marshall.isHandledByCodec, ← find?_isSome_eq_any, h]
    rfl
  have hDict : M.objectToCodecDict v = some (c.2.serialise v) := by
    rw [Marshall.objectToCodecDict, h]
    rfl
  rw [Marshall.serialiseData.eq_def, if_pos hAny, hDict]
  rfl

/-- A concrete catch-all codec, for witnesses. -/
def catchAllCodec : MCodec :=
  ⟨fun _ => true, fun _ => .dict [("__codec__", .str "ci"), ("params", .int 7)],
   fun _ => .int 7⟩

/-- A marshall whose registry holds only `catchAllCodec`, for witnesses. -/
def codecOnlyMarshall : Marshall := ⟨⟨[]⟩, [("ci", catchAllCodec)]⟩

/-- C4 witness: a codec that also handles generic objects wins over
reflection at a concrete object value. -/
theorem c4_witness :
    codecOnlyMarshall.serialiseData (.obj "A" [("x", .int 3)]) =
      .ok (("ci", catchAllCodec).2.serialise (.obj "A" [("x", .int 3)])) :=
  c4_codec_precedence codecOnlyMarshall _ ("ci", catchAllCodec) rfl

/-- C10: `_object_to_codec_dict` returns an envelope exactly when
`_is_handled_by_codec` holds — so the implicit-`None` fall-through is
unreachable under `serialise_data`'s guard — and the envelope returned
is always the first matching codec's `serialise` output. -/
theorem c10_codec_guard (M : Marshall) (v : PyVal) :
    ((M.objectToCodecDict v).isSome = M.isHandledByCodec v)
    ∧ (∀ c, M.codecs.find? (fun p => p.2.handles v) = some c →
        M.objectToCodecDict v = some (c.2.serialise v)) := by
  constructor
  · rw [Marshall.objectToCodecDict, Marshall.isHandledByCodec, ← find?_isSome_eq_any]
    cases List.find? (fun p => p.2.handles v) M.codecs <;> rfl
  · intro c h
    rw [Marshall.objectToCodecDict, h]
    rfl

/-- C10 witness: the guard equivalence and first-match output at a
concrete one-codec registry. -/
theorem c10_witness :
    codecOnlyMarshall.objectToCodecDict (.int 5) =
      some (("ci", catchAllCodec).2.serialise (.int 5)) :=
  (c10_codec_guard codecOnlyMarshall (.int 5)).2 ("ci", catchAllCodec) rfl

/-! Observable equality.  Python `==` compares a `dict` and an
`immutables.Map` as mappings (key/value sets, insertion order ignored),
compares reconstructed objects attribute-by-attribute, and never equates
a tuple with a list.  Two modelled values with duplicate-free keys are
observably equal exactly when their `canon` images coincide: `canon`
recursively sorts `dict`/`map`/`obj` entry lists by key and collapses
the `dict`/`map` distinction (a decoded `Map` is key/value-equal to its
encode-time `dict`). -/

mutual

/-- Canonical form for observable equality (see the section comment). -/
def canon : PyVal → PyVal
  | .none => .none
  | .bool b => .bool b
  | .int n => .int n
  | .str s => .str s
  | .list xs => .list (canonList xs)
  | .tuple xs => .tuple (canonList xs)
  | .dict es => .dict (sortByKey (canonEntries es))
  | .map es => .dict (sortByKey (canonEntries es))
  | .obj c f => .obj c (sortByKey (canonEntries f))
  | .enumMember c n v => .enumMember c n v
termination_by v => (sizeOf v, 1)
decreasing_by
  all_goals simp_wf
  all_goals apply Prod.Lex.left
  all_goals omega

/-- `canon` on list elements. -/
def canonList : List PyVal → List PyVal
  | [] => []
  | x :: rest => canon x :: canonList rest
termination_by xs => (sizeOf xs, 0)
decreasing_by
  all_goals simp_wf
  all_goals apply Prod.Lex.left
  all_goals omega

/-- `canon` on entry values. -/
def canonEntries : List (String × PyVal) → List (String × PyVal)
  | [] => []
  | (k, v) :: rest => (k, canon v) :: canonEntries rest
termination_by es => (sizeOf es, 0)
decreasing_by
  all_goals simp_wf
  all_goals apply Prod.Lex.left
  all_goals omega

end

theorem canonList_eq_map (xs : List PyVal) : canonList xs = xs.map canon := by
  induction xs with
  | nil => rw [canonList, List.map]
  | cons x rest ih => rw [canonList, ih, List.map]

theorem canonEntries_eq_map (es : List (String × PyVal)) :
    canonEntries es = es.map (fun p => (p.1, canon p.2)) := by
  induction es with
  | nil => rw [canonEntries, List.map]
  | cons p rest ih =>
    rcases p with ⟨k, v⟩
    rw [canonEntries, ih, List.map]

/-- The entrywise `canon` image. -/
def canonPair (p : String × PyVal) : String × PyVal :=
  (p.1, canon p.2)

theorem orderedInsert_canonPair (p : String × PyVal) (l : List (String × PyVal)) :
    List.orderedInsert keyRel (canonPair p) (l.map canonPair) =
      (List.orderedInsert keyRel p l).map canonPair := by
  induction l with
  | nil => rfl
  | cons q t ih =>
    rw [List.map_cons, List.orderedInsert, List.orderedInsert]
    by_cases h : keyRel p q
    · rw [if_pos h, if_pos (show keyRel (canonPair p) (canonPair q) from h)]
      rfl
    · rw [if_neg h, if_neg (show ¬ keyRel (canonPair p) (canonPair q) from h)]
      rw [List.map_cons, ih]

theorem canonEntries_eq_mapPair (es : List (String × PyVal)) :
    canonEntries es = es.map canonPair :=
  canonEntries_eq_map es

theorem sortByKey_canonEntries (l : List (String × PyVal)) :
    sortByKey (canonEntries l) = canonEntries (sortByKey l) := by
  induction l with
  | nil =>
    have h0 : canonEntries [] = [] := by rw [canonEntries]
    show sortByKey (canonEntries []) = canonEntries []
    rw [h0]
    rfl
  | cons p t ih =>
    rw [canonEntries_eq_mapPair, List.map_cons]
    rw [show sortByKey (canonPair p :: List.map canonPair t) =
      List.orderedInsert keyRel (canonPair p) (sortByKey (List.map canonPair t)) from rfl]
    rw [show sortByKey (p :: t) = List.orderedInsert keyRel p (sortByKey t) from rfl]
    rw [← canonEntries_eq_mapPair, ih, canonEntries_eq_mapPair, orderedInsert_canonPair]
    rw [← canonEntries_eq_mapPair]

theorem sortByKey_sorted (l : List (String × PyVal)) :
    (sortByKey l).Pairwise keyRel :=
  List.sorted_insertionSort keyRel l

theorem eq_of_perm_of_sorted_keys {l₁ l₂ : List (String × PyVal)} (hp : l₁.Perm l₂)
    (hs₁ : l₁.Pairwise keyRel) (hs₂ : l₂.Pairwise keyRel)
    (hn : (l₁.map Prod.fst).Nodup) : l₁ = l₂ := by
  have hn₂ : (l₂.map Prod.fst).Nodup := ((hp.map Prod.fst).nodup_iff).mp hn
  have hne₁ : l₁.Pairwise (fun a b => a.1 ≠ b.1) := List.pairwise_map.mp hn
  have hne₂ : l₂.Pairwise (fun a b => a.1 ≠ b.1) := List.pairwise_map.mp hn₂
  have strict₁ : l₁.Pairwise (fun a b => keyRel a b ∧ a.1 ≠ b.1) := hs₁.and hne₁
  have strict₂ : l₂.Pairwise (fun a b => keyRel a b ∧ a.1 ≠ b.1) := hs₂.and hne₂
  haveI : IsAntisymm (String × PyVal) (fun a b => keyRel a b ∧ a.1 ≠ b.1) :=
    ⟨fun a b h1 h2 => absurd (pyStrLe_antisymm h1.1 h2.1) h1.2⟩
  exact List.eq_of_perm_of_sorted hp strict₁ strict₂

/-! The parser inverts the renderer: parsing a rendered JSON tree (with
any remainder appended) returns the tree's canonical form and the
remainder, and the fuel the renderer's size bound provides suffices.
The three statements (value, array tail, object tail) are proved
together by strong induction on a structural size bound. -/

theorem parse_dump_all (n : Nat) :
    (∀ t, sizeOf t ≤ n → isJsonTree t = true → ∀ cs, dumpVal t = .ok cs →
      jfuel t ≤ cs.length ∧
        ∀ fuel, jfuel t ≤ fuel → ∀ rest, headNotDigit rest →
          parseVal fuel (cs ++ rest) = some (canon t, rest)) ∧
    (∀ x xs, sizeOf x + sizeOf xs ≤ n → isJsonTree x = true →
      isJsonTreeList xs = true → ∀ chunks, dumpList (x :: xs) = .ok chunks →
      jfuelList (x :: xs) ≤ (joinComma chunks).length + 1 ∧
        ∀ fuel, jfuelList (x :: xs) ≤ fuel → ∀ rest,
          parseElems fuel (joinComma chunks ++ ']' :: rest) =
            some (canonList (x :: xs), rest)) ∧
    (∀ k v es, sizeOf v + sizeOf es ≤ n → isJsonTree v = true →
      isJsonTreeEntries es = true → ∀ chunks, dumpEntries ((k, v) :: es) = .ok chunks →
      jfuelEntries ((k, v) :: es) ≤ (joinComma chunks).length + 1 ∧
        ∀ fuel, jfuelEntries ((k, v) :: es) ≤ fuel → ∀ rest,
          parseEntries fuel (joinComma chunks ++ '}' :: rest) =
            some (canonEntries ((k, v) :: es), rest)) := by
  induction n using Nat.strong_induction_on with
  | _ n IH =>
  refine ⟨?_, ?_, ?_⟩
  · intro t hsz hT cs hd
    cases t with
    | none =>
      rw [dumpVal_none] at hd
      cases hd
      constructor
      · rw [jfuel]
        decide
      · intro fuel hf rest hrest
        rw [jfuel] at hf
        obtain ⟨f, rfl⟩ : ∃ f, fuel = f + 1 := ⟨fuel - 1, by omega⟩
        have hc : canon PyVal.none = PyVal.none := by rw [canon]
        rw [hc]
        show parseVal (f + 1) ('n' :: 'u' :: 'l' :: 'l' :: rest) = some (PyVal.none, rest)
        rfl
    | bool b =>
      cases b with
      | false =>
        rw [dumpVal_false] at hd
        cases hd
        constructor
        · rw [jfuel]
          decide
        · intro fuel hf rest hrest
          rw [jfuel] at hf
          obtain ⟨f, rfl⟩ : ∃ f, fuel = f + 1 := ⟨fuel - 1, by omega⟩
          have hc : canon (PyVal.bool false) = PyVal.bool false := by rw [canon]
          rw [hc]
          show parseVal (f + 1) ('f' :: 'a' :: 'l' :: 's' :: 'e' :: rest) =
            some (PyVal.bool false, rest)
          rfl
      | true =>
        rw [dumpVal_true] at hd
        cases hd
        constructor
        · rw [jfuel]
          decide
        · intro fuel hf rest hrest
          rw [jfuel] at hf
          obtain ⟨f, rfl⟩ : ∃ f, fuel = f + 1 := ⟨fuel - 1, by omega⟩
          have hc : canon (PyVal.bool true) = PyVal.bool true := by rw [canon]
          rw [hc]
          show parseVal (f + 1) ('t' :: 'r' :: 'u' :: 'e' :: rest) =
            some (PyVal.bool true, rest)
          rfl
    | int m =>
      rw [dumpVal_int] at hd
      cases hd
      constructor
      · rw [jfuel]
        exact List.length_pos.mpr (intChars_ne_nil m)
      · intro fuel hf rest hrest
        rw [jfuel] at hf
        obtain ⟨f, rfl⟩ : ∃ f, fuel = f + 1 := ⟨fuel - 1, by omega⟩
        have hc : canon (PyVal.int m) = PyVal.int m := by rw [canon]
        rw [hc]
        exact parseVal_intChars f m rest hrest
    | str s =>
      rw [dumpVal_str] at hd
      cases hd
      constructor
      · rw [jfuel]
        exact strChars_length s
      · intro fuel hf rest hrest
        rw [jfuel] at hf
        obtain ⟨f, rfl⟩ : ∃ f, fuel = f + 1 := ⟨fuel - 1, by omega⟩
        have harr : strChars s ++ rest =
            '"' :: ((s.data.map escapeChar).flatten ++ '"' :: rest) := by
          simp [strChars, List.append_assoc]
        rw [harr, parseVal_quote]
        rw [parseStr_strChars s.data rest f (by omega)]
        rw [Option.map_some']
        rw [strEta]
        have hc : canon (PyVal.str s) = PyVal.str s := by rw [canon]
        rw [hc]
    | list xs =>
      have hT2 : isJsonTreeList xs = true := by rw [isJsonTree] at hT; exact hT
      obtain ⟨chunks, hdl, rfl⟩ := dumpVal_list_inv hd
      cases xs with
      | nil =>
        rw [dumpList_nil] at hdl
        cases hdl
        constructor
        · rw [jfuel, jfuelList]
          decide
        · intro fuel hf rest hrest
          rw [jfuel, jfuelList] at hf
          obtain ⟨f, rfl⟩ : ∃ f, fuel = f + 1 := ⟨fuel - 1, by omega⟩
          have hc : canon (PyVal.list []) = PyVal.list [] := by rw [canon, canonList]
          rw [hc]
          show parseVal (f + 1) ('[' :: ']' :: rest) = some (PyVal.list [], rest)
          rfl
      | cons x xs2 =>
        rw [isJsonTreeList] at hT2
        rw [Bool.and_eq_true] at hT2
        obtain ⟨hTx, hTxs⟩ := hT2
        obtain ⟨cx, crest, hdx, hdrest, rfl⟩ := dumpList_cons_ok hdl
        have hm : sizeOf x + sizeOf xs2 < n := by
          simp at hsz
          omega
        obtain ⟨hlen, hpar⟩ :=
          (IH (sizeOf x + sizeOf xs2) hm).2.1 x xs2 le_rfl hTx hTxs (cx :: crest) hdl
        obtain ⟨hc0, cs2, hcx, hne1, hne2⟩ := dumpVal_head hTx hdx
        constructor
        · rw [jfuel]
          have hL1 := List.length_append ('[' :: joinComma (cx :: crest)) ([']'] : List Char)
          have hL2 : ('[' :: joinComma (cx :: crest)).length =
              (joinComma (cx :: crest)).length + 1 := rfl
          have hL3 : ([']'] : List Char).length = 1 := rfl
          omega
        · intro fuel hf rest hrest
          rw [jfuel] at hf
          obtain ⟨f, rfl⟩ : ∃ f, fuel = f + 1 := ⟨fuel - 1, by omega⟩
          have hfl : jfuelList (x :: xs2) ≤ f := by omega
          obtain ⟨T, hjoin⟩ : ∃ T, joinComma (cx :: crest) = hc0 :: T := by
            rw [hcx]
            exact joinComma_head hc0 cs2 crest
          rw [append_wrap, hjoin, List.cons_append]
          rw [parseVal_bracket f hc0 (T ++ ']' :: rest) hne1]
          rw [← List.cons_append, ← hjoin]
          rw [hpar f hfl rest]
          rw [Option.map_some']
          have hc : canon (PyVal.list (x :: xs2)) = PyVal.list (canonList (x :: xs2)) := by
            rw [canon]
          rw [hc]
    | dict es =>
      have hT2 : isJsonTreeEntries es = true := by rw [isJsonTree] at hT; exact hT
      obtain ⟨chunks, hde, rfl⟩ := dumpVal_dict_inv hd
      have hjf : jfuelEntries (sortByKey es) = jfuelEntries es :=
        jfuelEntries_perm (sortByKey_perm es)
      cases hs : sortByKey es with
      | nil =>
        rw [hs] at hde
        rw [dumpEntries_nil] at hde
        cases hde
        have hp := sortByKey_perm es
        rw [hs] at hp
        have hes := hp.symm.eq_nil
        subst hes
        constructor
        · rw [jfuel, jfuelEntries]
          decide
        · intro fuel hf rest hrest
          rw [jfuel, jfuelEntries] at hf
          obtain ⟨f, rfl⟩ : ∃ f, fuel = f + 1 := ⟨fuel - 1, by omega⟩
          have hc : canon (PyVal.dict []) = PyVal.dict [] := by
            rw [canon, canonEntries]
            rfl
          rw [hc]
          show parseVal (f + 1) ('{' :: '}' :: rest) = some (PyVal.dict [], rest)
          rfl
      | cons p tailS =>
        rcases p with ⟨k, v⟩
        rw [hs] at hde
        have hTs : isJsonTreeEntries ((k, v) :: tailS) = true := by
          rw [isJsonTreeEntries_mem]
          intro q hq
          refine (isJsonTreeEntries_mem es).mp hT2 q ?_
          have hperm := sortByKey_perm es
          rw [hs] at hperm
          exact hperm.subset hq
        rw [isJsonTreeEntries] at hTs
        rw [Bool.and_eq_true] at hTs
        obtain ⟨hTv, hTt⟩ := hTs
        obtain ⟨cv, ctail, hdv, hdt, rfl⟩ := dumpEntries_cons_ok hde
        have hsz2 := perm_sizeOf (sortByKey_perm es)
        rw [hs] at hsz2
        simp at hsz2 hsz
        have hm : sizeOf v + sizeOf tailS < n := by omega
        obtain ⟨hlen, hpar⟩ := (IH (sizeOf v + sizeOf tailS) hm).2.2 k v tailS le_rfl
          hTv hTt ((strChars k ++ ':' :: cv) :: ctail) hde
        constructor
        · rw [jfuel]
          have hjE : jfuelEntries es = jfuelEntries ((k, v) :: tailS) := by
            rw [← hjf, hs]
          have hL1 := List.length_append
            ('{' :: joinComma ((strChars k ++ ':' :: cv) :: ctail)) (['}'] : List Char)
          have hL2 : ('{' :: joinComma ((strChars k ++ ':' :: cv) :: ctail)).length =
              (joinComma ((strChars k ++ ':' :: cv) :: ctail)).length + 1 := rfl
          have hL3 : (['}'] : List Char).length = 1 := rfl
          omega
        · intro fuel hf rest hrest
          rw [jfuel] at hf
          have hjE : jfuelEntries es = jfuelEntries ((k, v) :: tailS) := by
            rw [← hjf, hs]
          obtain ⟨f, rfl⟩ : ∃ f, fuel = f + 1 := ⟨fuel - 1, by omega⟩
          have hfe : jfuelEntries ((k, v) :: tailS) ≤ f := by omega
          obtain ⟨T, hjoin⟩ :
              ∃ T, joinComma ((strChars k ++ ':' :: cv) :: ctail) = '"' :: T := by
            have hchunk : strChars k ++ ':' :: cv =
                '"' :: (((k.data.map escapeChar).flatten ++ ['"']) ++ ':' :: cv) := rfl
            rw [hchunk]
            exact joinComma_head '"' _ ctail
          rw [append_wrap, hjoin, List.cons_append]
          rw [parseVal_brace f '"' (T ++ '}' :: rest) (by decide)]
          rw [← List.cons_append, ← hjoin]
          rw [hpar f hfe rest]
          rw [Option.map_some']
          have hc : canon (PyVal.dict es) = PyVal.dict (canonEntries ((k, v) :: tailS)) := by
            rw [canon, sortByKey_canonEntries, hs]
          rw [hc]
    | tuple xs => rw [isJsonTree] at hT; cases hT
    | map es => rw [isJsonTree] at hT; cases hT
    | obj c fs => rw [isJsonTree] at hT; cases hT
    | enumMember c nm v => rw [isJsonTree] at hT; cases hT
  · intro x xs hsz hTx hTxs chunks hdc
    obtain ⟨cx, crest, hdx, hdrest, rfl⟩ := dumpList_cons_ok hdc
    have hmx : sizeOf x < n := by
      have h1 := list_sizeOf_pos xs
      omega
    obtain ⟨hlenx, hparx⟩ := (IH (sizeOf x) hmx).1 x le_rfl hTx cx hdx
    cases xs with
    | nil =>
      rw [dumpList_nil] at hdrest
      cases hdrest
      rw [joinComma_single]
      constructor
      · rw [jfuelList, jfuelList]
        omega
      · intro fuel hf rest
        rw [jfuelList, jfuelList] at hf
        obtain ⟨f, rfl⟩ : ∃ f, fuel = f + 1 := ⟨fuel - 1, by omega⟩
        rw [parseElems_succ]
        rw [hparx f (by omega) (']' :: rest) (headNotDigit_cons ']' (by decide) rest)]
        have hcl : canonList [x] = [canon x] := by rw [canonList, canonList]
        rw [hcl]
        rfl
    | cons y ys =>
      rw [isJsonTreeList] at hTxs
      rw [Bool.and_eq_true] at hTxs
      obtain ⟨hTy, hTys⟩ := hTxs
      obtain ⟨cy, cyr, hdy, hdyr, rfl⟩ := dumpList_cons_ok hdrest
      have hmy : sizeOf y + sizeOf ys < n := by
        simp at hsz
        omega
      obtain ⟨hlent, hpart⟩ :=
        (IH (sizeOf y + sizeOf ys) hmy).2.1 y ys le_rfl hTy hTys (cy :: cyr) hdrest
      rw [joinComma_cons]
      constructor
      · rw [jfuelList]
        have hL1 := List.length_append cx (',' :: joinComma (cy :: cyr))
        have hL2 : (',' :: joinComma (cy :: cyr)).length =
            (joinComma (cy :: cyr)).length + 1 := rfl
        omega
      · intro fuel hf rest
        rw [jfuelList] at hf
        obtain ⟨f, rfl⟩ : ∃ f, fuel = f + 1 := ⟨fuel - 1, by omega⟩
        rw [parseElems_succ]
        have harr : (cx ++ ',' :: joinComma (cy :: cyr)) ++ ']' :: rest =
            cx ++ ',' :: (joinComma (cy :: cyr) ++ ']' :: rest) := by
          simp [List.append_assoc]
        rw [harr]
        rw [hparx f (by omega) (',' :: (joinComma (cy :: cyr) ++ ']' :: rest))
          (headNotDigit_cons ',' (by decide) _)]
        show (parseElems f (joinComma (cy :: cyr) ++ ']' :: rest)).map
            (fun p => (canon x :: p.1, p.2)) = some (canonList (x :: y :: ys), rest)
        rw [hpart f (by omega) rest]
        rw [Option.map_some']
        have hcl : canonList (x :: y :: ys) = canon x :: canonList (y :: ys) := by
          rw [canonList]
        rw [hcl]
  · intro k v es hsz hTv hTes chunks hdc
    obtain ⟨cv, ctail, hdv, hdt, rfl⟩ := dumpEntries_cons_ok hdc
    have hmv : sizeOf v < n := by
      have h1 := list_sizeOf_pos es
      omega
    obtain ⟨hlenv, hparv⟩ := (IH (sizeOf v) hmv).1 v le_rfl hTv cv hdv
    have hKlen := strChars_length k
    cases es with
    | nil =>
      rw [dumpEntries_nil] at hdt
      cases hdt
      rw [joinComma_single]
      constructor
      · rw [jfuelEntries, jfuelEntries]
        have hL1 := List.length_append (strChars k) (':' :: cv)
        have hL2 : (':' :: cv).length = cv.length + 1 := rfl
        omega
      · intro fuel hf rest
        rw [jfuelEntries, jfuelEntries] at hf
        obtain ⟨f, rfl⟩ : ∃ f, fuel = f + 1 := ⟨fuel - 1, by omega⟩
        have harr : (strChars k ++ ':' :: cv) ++ '}' :: rest =
            '"' :: ((k.data.map escapeChar).flatten ++ '"' ::
              (':' :: (cv ++ '}' :: rest))) := by
          simp [strChars, List.append_assoc]
        rw [harr, parseEntries_quote]
        rw [parseStr_strChars k.data (':' :: (cv ++ '}' :: rest)) f (by omega)]
        show (do
            let (w, r3) ← parseVal f (cv ++ '}' :: rest)
            match r3 with
            | ',' :: r4 =>
              (parseEntries f r4).map (fun p => ((String.mk k.data, w) :: p.1, p.2))
            | '}' :: r4 => some ([(String.mk k.data, w)], r4)
            | _ => Option.none) = some (canonEntries [(k, v)], rest)
        rw [hparv f (by omega) ('}' :: rest) (headNotDigit_cons '}' (by decide) rest)]
        show some ([(String.mk k.data, canon v)], rest) = some (canonEntries [(k, v)], rest)
        rw [strEta]
        have hce : canonEntries [(k, v)] = [(k, canon v)] := by
          rw [canonEntries, canonEntries]
        rw [hce]
    | cons p2 tail2 =>
      rcases p2 with ⟨k2, v2⟩
      rw [isJsonTreeEntries] at hTes
      rw [Bool.and_eq_true] at hTes
      obtain ⟨hTv2, hTt2⟩ := hTes
      obtain ⟨cv2, ct2, hdv2, hdt2, rfl⟩ := dumpEntries_cons_ok hdt
      have hm2 : sizeOf v2 + sizeOf tail2 < n := by
        simp at hsz
        omega
      obtain ⟨hlen2, hpar2⟩ := (IH (sizeOf v2 + sizeOf tail2) hm2).2.2 k2 v2 tail2 le_rfl
        hTv2 hTt2 ((strChars k2 ++ ':' :: cv2) :: ct2) hdt
      rw [joinComma_cons]
      constructor
      · rw [jfuelEntries]
        have hL1 := List.length_append (strChars k ++ ':' :: cv)
          (',' :: joinComma ((strChars k2 ++ ':' :: cv2) :: ct2))
        have hL2 := List.length_append (strChars k) (':' :: cv)
        have hL3 : (',' :: joinComma ((strChars k2 ++ ':' :: cv2) :: ct2)).length =
            (joinComma ((strChars k2 ++ ':' :: cv2) :: ct2)).length + 1 := rfl
        have hL4 : (':' :: cv).length = cv.length + 1 := rfl
        omega
      · intro fuel hf rest
        rw [jfuelEntries] at hf
        obtain ⟨f, rfl⟩ : ∃ f, fuel = f + 1 := ⟨fuel - 1, by omega⟩
        have harr : ((strChars k ++ ':' :: cv) ++
              ',' :: joinComma ((strChars k2 ++ ':' :: cv2) :: ct2)) ++ '}' :: rest =
            '"' :: ((k.data.map escapeChar).flatten ++ '"' :: (':' :: (cv ++
              ',' :: (joinComma ((strChars k2 ++ ':' :: cv2) :: ct2) ++
                '}' :: rest)))) := by
          simp [strChars, List.append_assoc]
        rw [harr, parseEntries_quote]
        rw [parseStr_strChars k.data (':' :: (cv ++
          ',' :: (joinComma ((strChars k2 ++ ':' :: cv2) :: ct2) ++ '}' :: rest)))
          f (by omega)]
        show (do
            let (w, r3) ← parseVal f (cv ++
              ',' :: (joinComma ((strChars k2 ++ ':' :: cv2) :: ct2) ++ '}' :: rest))
            match r3 with
            | ',' :: r4 =>
              (parseEntries f r4).map (fun p => ((String.mk k.data, w) :: p.1, p.2))
            | '}' :: r4 => some ([(String.mk k.data, w)], r4)
            | _ => Option.none) =
          some (canonEntries ((k, v) :: (k2, v2) :: tail2), rest)
        rw [hparv f (by omega) (',' ::
          (joinComma ((strChars k2 ++ ':' :: cv2) :: ct2) ++ '}' :: rest))
          (headNotDigit_cons ',' (by decide) _)]
        show (parseEntries f
            (joinComma ((strChars k2 ++ ':' :: cv2) :: ct2) ++ '}' :: rest)).map
            (fun p => ((String.mk k.data, canon v) :: p.1, p.2)) =
          some (canonEntries ((k, v) :: (k2, v2) :: tail2), rest)
        rw [hpar2 f (by omega) rest]
        rw [Option.map_some']
        rw [strEta]
        have hce : canonEntries ((k, v) :: (k2, v2) :: tail2) =
            (k, canon v) :: canonEntries ((k2, v2) :: tail2) := by
          rw [canonEntries]
        rw [hce]

/-- Value form of `parse_dump_all`. -/
theorem parse_dumpVal (t : PyVal) (hT : isJsonTree t = true) (cs : List Char)
    (hd : dumpVal t = .ok cs) :
    jfuel t ≤ cs.length ∧
      ∀ fuel, jfuel t ≤ fuel → ∀ rest, headNotDigit rest →
        parseVal fuel (cs ++ rest) = some (canon t, rest) :=
  (parse_dump_all (sizeOf t)).1 t le_rfl hT cs hd

/-- `json.loads` inverts `json.dumps` up to observable equality: parsing
a rendered tree gives its canonical form. -/
theorem loads_dumps (t : PyVal) (hT : isJsonTree t = true) (s : String)
    (hd : dumps t = .ok s) : loads s = some (canon t) := by
  unfold dumps at hd
  rcases h1 : dumpVal t with e | cs
  · rw [h1] at hd
    simp [Except.map] at hd
  · rw [h1] at hd
    simp only [Except.map] at hd
    cases hd
    obtain ⟨hlen, hpar⟩ := parse_dumpVal t hT cs h1
    unfold loads
    have hdata : (String.mk cs).data = cs := rfl
    rw [hdata]
    have hp := hpar (cs.length + 1) (by omega) [] (fun c cs0 h => by cases h)
    rw [List.append_nil] at hp
    rw [hp]

/-- Sorting commutes with a key-preserving entry transformation when
keys are duplicate-free. -/
theorem sortByKey_map_comm (g : String × PyVal → String × PyVal)
    (hg : ∀ p, (g p).1 = p.1) (es : List (String × PyVal))
    (hn : (es.map Prod.fst).Nodup) :
    sortByKey (es.map g) = (sortByKey es).map g := by
  have hperm : (sortByKey (es.map g)).Perm ((sortByKey es).map g) :=
    ((sortByKey_perm (es.map g)).trans ((sortByKey_perm es).symm.map g))
  have hkeys : ∀ (l : List (String × PyVal)), (l.map g).map Prod.fst = l.map Prod.fst := by
    intro l
    rw [List.map_map]
    exact List.map_congr_left (fun p _ => hg p)
  refine eq_of_perm_of_sorted_keys hperm (sortByKey_sorted _) ?_ ?_
  · exact List.Pairwise.map g
      (fun a b hab => by
        simp only [keyRel, hg] at *
        exact hab)
      (sortByKey_sorted es)
  · have hperm2 : ((sortByKey (List.map g es)).map Prod.fst).Perm
        ((List.map g es).map Prod.fst) :=
      (sortByKey_perm (List.map g es)).map Prod.fst
    refine hperm2.nodup_iff.mpr ?_
    rw [hkeys]
    exact hn

theorem except_bind_ok {α β : Type} {e : Except PyErr α} {f : α → Except PyErr β}
    {b : β} : (e >>= f) = .ok b ↔ ∃ a, e = .ok a ∧ f a = .ok b := by
  cases e <;> simp [Bind.bind, Except.bind]

/-- The entrywise serialisation image, when every value serialises. -/
def serialiseImage (M : Marshall) (p : String × PyVal) : String × PyVal :=
  (p.1, (M.serialiseData p.2).toOption.getD PyVal.none)

theorem serialiseEntries_ok_mem {M : Marshall} {es : List (String × PyVal)}
    {l : List (String × PyVal)} (h : M.serialiseEntries es = .ok l) :
    ∀ p ∈ es, ∃ y, M.serialiseData p.2 = .ok y := by
  induction es generalizing l with
  | nil => intro p hp; cases hp
  | cons q rest ih =>
    rcases q with ⟨k, x⟩
    rw [Marshall.serialiseEntries] at h
    simp only [Bind.bind, Except.bind] at h
    intro p hp
    rcases hy : M.serialiseData x with e | y
    · rw [hy] at h
      cases h
    · rw [hy] at h
      rcases hr : M.serialiseEntries rest with e | l' <;> rw [hr] at h
      · cases h
      · rcases List.mem_cons.mp hp with hp1 | hp1
        · exact ⟨y, by rw [hp1]; exact hy⟩
        · exact ih hr p hp1

theorem serialiseEntries_eq_map {M : Marshall} {es : List (String × PyVal)}
    (h : ∀ p ∈ es, ∃ y, M.serialiseData p.2 = .ok y) :
    M.serialiseEntries es = .ok (es.map (serialiseImage M)) := by
  induction es with
  | nil => rw [Marshall.serialiseEntries, List.map]
  | cons q rest ih =>
    rcases q with ⟨k, x⟩
    rw [Marshall.serialiseEntries]
    obtain ⟨y, hy⟩ := h (k, x) (by simp)
    simp only [Bind.bind, Except.bind, hy]
    rw [ih (fun p hp => h p (by simp [hp]))]
    simp [serialiseImage, hy, Except.toOption]

theorem dumpVal_dict (l : List (String × PyVal)) :
    dumpVal (.dict l) =
      (do
        let chunks ← dumpEntries (sortByKey l)
        Except.ok ('{' :: joinComma chunks ++ ['}'])) := by
  rw [dumpVal.eq_def]

/-! Totality of the renderer on JSON trees. -/

theorem dump_total_all (n : Nat) :
    (∀ t, sizeOf t ≤ n → isJsonTree t = true → ∃ cs, dumpVal t = .ok cs) ∧
    (∀ xs : List PyVal, sizeOf xs ≤ n → isJsonTreeList xs = true →
      ∃ cs, dumpList xs = .ok cs) ∧
    (∀ es : List (String × PyVal), sizeOf es ≤ n → isJsonTreeEntries es = true →
      ∃ cs, dumpEntries es = .ok cs) := by
  induction n using Nat.strong_induction_on with
  | _ n IH =>
  refine ⟨?_, ?_, ?_⟩
  · intro t hsz hT
    cases t with
    | none => exact ⟨_, dumpVal_none⟩
    | bool b =>
      cases b
      · exact ⟨_, dumpVal_false⟩
      · exact ⟨_, dumpVal_true⟩
    | int m => exact ⟨_, dumpVal_int m⟩
    | str s => exact ⟨_, dumpVal_str s⟩
    | list xs =>
      have hT2 : isJsonTreeList xs = true := by rw [isJsonTree] at hT; exact hT
      simp at hsz
      have hm : sizeOf xs < n := by omega
      obtain ⟨cs, hcs⟩ := (IH (sizeOf xs) hm).2.1 xs le_rfl hT2
      exact ⟨_, dumpVal_list_ok hcs⟩
    | dict es =>
      have hT2 : isJsonTreeEntries es = true := by rw [isJsonTree] at hT; exact hT
      have hTs : isJsonTreeEntries (sortByKey es) = true := by
        rw [isJsonTreeEntries_mem]
        intro q hq
        exact (isJsonTreeEntries_mem es).mp hT2 q ((sortByKey_perm es).subset hq)
      have h2 := perm_sizeOf (sortByKey_perm es)
      simp at hsz
      have hm : sizeOf (sortByKey es) < n := by omega
      obtain ⟨cs, hcs⟩ := (IH (sizeOf (sortByKey es)) hm).2.2 (sortByKey es) le_rfl hTs
      exact ⟨_, dumpVal_dict_ok hcs⟩
    | tuple xs => rw [isJsonTree] at hT; cases hT
    | map es => rw [isJsonTree] at hT; cases hT
    | obj c fs => rw [isJsonTree] at hT; cases hT
    | enumMember c nm v => rw [isJsonTree] at hT; cases hT
  · intro xs hsz hT
    cases xs with
    | nil => exact ⟨[], dumpList_nil⟩
    | cons x rest =>
      rw [isJsonTreeList] at hT
      rw [Bool.and_eq_true] at hT
      obtain ⟨hTx, hTr⟩ := hT
      simp at hsz
      have hmx : sizeOf x < n := by omega
      have hmr : sizeOf rest < n := by omega
      obtain ⟨c1, h1⟩ := (IH (sizeOf x) hmx).1 x le_rfl hTx
      obtain ⟨c2, h2⟩ := (IH (sizeOf rest) hmr).2.1 rest le_rfl hTr
      exact ⟨c1 :: c2, by rw [dumpList]; rw [h1, h2]; rfl⟩
  · intro es hsz hT
    cases es with
    | nil => exact ⟨[], dumpEntries_nil⟩
    | cons q rest =>
      rcases q with ⟨k, v⟩
      rw [isJsonTreeEntries] at hT
      rw [Bool.and_eq_true] at hT
      obtain ⟨hTv, hTr⟩ := hT
      simp at hsz
      have hmv : sizeOf v < n := by omega
      have hmr : sizeOf rest < n := by omega
      obtain ⟨c1, h1⟩ := (IH (sizeOf v) hmv).1 v le_rfl hTv
      obtain ⟨c2, h3⟩ := (IH (sizeOf rest) hmr).2.2 rest le_rfl hTr
      exact ⟨(strChars k ++ ':' :: c1) :: c2, by rw [dumpEntries]; rw [h1, h3]; rfl⟩

/-- A value satisfying `isJsonTree` always renders. -/
theorem dumps_ok (t : PyVal) (hT : isJsonTree t = true) : ∃ s, dumps t = .ok s := by
  obtain ⟨cs, hcs⟩ := (dump_total_all (sizeOf t)).1 t le_rfl hT
  exact ⟨String.mk cs, by unfold dumps; rw [hcs]; rfl⟩

/-! Stability facts about the key sort. -/

theorem sortByKey_cons (a : String × PyVal) (l : List (String × PyVal)) :
    sortByKey (a :: l) = List.orderedInsert keyRel a (sortByKey l) := by
  rw [sortByKey, sortByKey, List.insertionSort]

theorem orderedInsert_of_forall_le {a : String × PyVal} {T : List (String × PyVal)}
    (h : ∀ x ∈ T, keyRel a x) : List.orderedInsert keyRel a T = a :: T := by
  cases T with
  | nil => rfl
  | cons b t =>
    rw [List.orderedInsert]
    rw [if_pos (h b (by simp))]

theorem sortByKey_of_sorted {l : List (String × PyVal)} (h : l.Pairwise keyRel) :
    sortByKey l = l := by
  induction l with
  | nil => rfl
  | cons a t ih =>
    rw [sortByKey_cons, ih (List.pairwise_cons.mp h).2]
    exact orderedInsert_of_forall_le (List.pairwise_cons.mp h).1

theorem sortByKey_idem (l : List (String × PyVal)) :
    sortByKey (sortByKey l) = sortByKey l :=
  sortByKey_of_sorted (sortByKey_sorted l)

theorem filter_orderedInsert (p : String × PyVal → Bool) (a : String × PyVal) :
    ∀ (S : List (String × PyVal)), S.Pairwise keyRel →
      (List.orderedInsert keyRel a S).filter p =
        if p a = true then List.orderedInsert keyRel a (S.filter p) else S.filter p := by
  intro S
  induction S with
  | nil =>
    intro hS
    rw [List.orderedInsert]
    by_cases hpa : p a = true
    · rw [if_pos hpa]
      simp [List.filter_cons, hpa]
    · rw [if_neg hpa]
      simp [List.filter_cons, hpa]
  | cons b S2 ih =>
    intro hS
    have hS2 : S2.Pairwise keyRel := (List.pairwise_cons.mp hS).2
    have hbAll : ∀ x ∈ S2, keyRel b x := (List.pairwise_cons.mp hS).1
    rw [List.orderedInsert]
    by_cases hab : keyRel a b
    · rw [if_pos hab]
      by_cases hpa : p a = true
      · rw [if_pos hpa]
        by_cases hpb : p b = true
        · rw [List.filter_cons, if_pos hpa, List.filter_cons, if_pos hpb]
          rw [List.orderedInsert, if_pos hab]
        · rw [List.filter_cons, if_pos hpa, List.filter_cons, if_neg hpb]
          rw [orderedInsert_of_forall_le]
          intro x hx
          exact IsTrans.trans a b x hab (hbAll x (List.mem_of_mem_filter hx))
      · rw [if_neg hpa]
        rw [List.filter_cons, if_neg hpa]
    · rw [if_neg hab]
      rw [List.filter_cons]
      by_cases hpb : p b = true
      · rw [if_pos hpb]
        rw [ih hS2]
        by_cases hpa : p a = true
        · rw [if_pos hpa, if_pos hpa]
          rw [List.filter_cons, if_pos hpb]
          rw [List.orderedInsert, if_neg hab]
        · rw [if_neg hpa, if_neg hpa]
          rw [List.filter_cons, if_pos hpb]
      · rw [if_neg hpb]
        rw [ih hS2]
        rw [List.filter_cons, if_neg hpb]

theorem filter_sortByKey (p : String × PyVal → Bool) (l : List (String × PyVal)) :
    (sortByKey l).filter p = sortByKey (l.filter p) := by
  induction l with
  | nil => rfl
  | cons a l2 ih =>
    rw [sortByKey_cons, filter_orderedInsert p a (sortByKey l2) (sortByKey_sorted l2)]
    rw [List.filter_cons]
    by_cases hpa : p a = true
    · rw [if_pos hpa, if_pos hpa, ih, sortByKey_cons]
    · rw [if_neg hpa, if_neg hpa, ih]

/-! Pointwise (`Forall₂`) machinery for the decode side. -/

theorem forall2_mem_right {α β : Type} {R : α → β → Prop} {l₁ : List α} {l₂ : List β}
    (h : List.Forall₂ R l₁ l₂) {b : β} (hb : b ∈ l₂) : ∃ a ∈ l₁, R a b := by
  induction h with
  | nil => cases hb
  | cons hr hrest ih =>
    rcases List.mem_cons.mp hb with rfl | hb2
    · exact ⟨_, by simp, hr⟩
    · obtain ⟨a, ha, har⟩ := ih hb2
      exact ⟨a, by simp [ha], har⟩

theorem orderedInsert_forall2 {R : (String × PyVal) → (String × PyVal) → Prop}
    (hkey : ∀ p q, R p q → p.1 = q.1) {a b : String × PyVal} (hab : R a b) :
    ∀ {s t : List (String × PyVal)}, List.Forall₂ R s t →
      List.Forall₂ R (List.orderedInsert keyRel a s) (List.orderedInsert keyRel b t) := by
  intro s t h
  induction h with
  | nil => exact List.Forall₂.cons hab List.Forall₂.nil
  | cons hxy hrest ih =>
    rename_i x y s2 t2
    rw [List.orderedInsert, List.orderedInsert]
    have hk1 := hkey a b hab
    have hk2 := hkey x y hxy
    have heq : keyRel a x = keyRel b y := by
      unfold keyRel
      rw [hk1, hk2]
    by_cases hax : keyRel a x
    · rw [if_pos hax, if_pos (heq ▸ hax)]
      exact List.Forall₂.cons hab (List.Forall₂.cons hxy hrest)
    · rw [if_neg hax, if_neg (heq ▸ hax)]
      exact List.Forall₂.cons hxy ih

theorem sortByKey_forall2 {R : (String × PyVal) → (String × PyVal) → Prop}
    (hkey : ∀ p q, R p q → p.1 = q.1) {l₁ l₂ : List (String × PyVal)}
    (h : List.Forall₂ R l₁ l₂) :
    List.Forall₂ R (sortByKey l₁) (sortByKey l₂) := by
  induction h with
  | nil => exact List.Forall₂.nil
  | cons hab hrest ih =>
    rw [sortByKey_cons, sortByKey_cons]
    exact orderedInsert_forall2 hkey hab ih

theorem deser_entries_of_forall2 {M : Marshall} {SE L : List (String × PyVal)}
    (h : List.Forall₂ (fun p q => p.1 = q.1 ∧
        ∃ w, M.deserialiseData q.2 = .ok w ∧ canon w = p.2) SE L) :
    ∃ W, M.deserialiseEntries L = .ok W ∧
      List.Forall₂ (fun p r => p.1 = r.1 ∧ canon r.2 = p.2) SE W := by
  induction h with
  | nil => exact ⟨[], by rw [Marshall.deserialiseEntries], List.Forall₂.nil⟩
  | cons hpq hrest ih =>
    rename_i p q SE2 L2
    rcases q with ⟨qk, qv⟩
    obtain ⟨hk, w, hw, hcw⟩ := hpq
    obtain ⟨W, hW, hf⟩ := ih
    refine ⟨(qk, w) :: W, ?_, ?_⟩
    · rw [Marshall.deserialiseEntries]
      rw [hw, hW]
      rfl
    · exact List.Forall₂.cons ⟨hk, hcw⟩ hf

theorem canonEntries_eq_of_forall2 {SE W : List (String × PyVal)}
    (h : List.Forall₂ (fun p r => p.1 = r.1 ∧ canon r.2 = p.2) SE W) :
    canonEntries W = SE := by
  induction h with
  | nil => rw [canonEntries]
  | cons hpr hrest ih =>
    rename_i p r SE2 W2
    rcases r with ⟨rk, rv⟩
    rcases p with ⟨pk, pv⟩
    obtain ⟨h1, h2⟩ := hpr
    replace h1 : pk = rk := h1
    replace h2 : canon rv = pv := h2
    rw [canonEntries, ih, h2, ← h1]

theorem forall2_canon_transport {M : Marshall} {es ss : List (String × PyVal)}
    (h : List.Forall₂ (fun p q => p.1 = q.1 ∧
        ∃ w, M.deserialiseData (canon q.2) = .ok w ∧ canon w = canon p.2) es ss) :
    List.Forall₂ (fun p q => p.1 = q.1 ∧
        ∃ w, M.deserialiseData q.2 = .ok w ∧ canon w = p.2)
      (canonEntries es) (canonEntries ss) := by
  rw [canonEntries_eq_mapPair, canonEntries_eq_mapPair]
  induction h with
  | nil => exact List.Forall₂.nil
  | cons hpq hrest ih =>
    rw [List.map_cons, List.map_cons]
    refine List.Forall₂.cons ?_ ih
    obtain ⟨h1, w, hw, hcw⟩ := hpq
    exact ⟨h1, w, hw, hcw⟩

theorem entries_decode_pipeline {M : Marshall} {es ss : List (String × PyVal)}
    (h : List.Forall₂ (fun p q => p.1 = q.1 ∧
        ∃ w, M.deserialiseData (canon q.2) = .ok w ∧ canon w = canon p.2) es ss) :
    ∃ W, M.deserialiseEntries (sortByKey (canonEntries ss)) = .ok W ∧
      sortByKey (canonEntries W) = sortByKey (canonEntries es) := by
  have h2 := forall2_canon_transport h
  have h3 := sortByKey_forall2 (fun p q hpq => hpq.1) h2
  obtain ⟨W, hW, h4⟩ := deser_entries_of_forall2 h3
  refine ⟨W, hW, ?_⟩
  rw [canonEntries_eq_of_forall2 h4]
  exact sortByKey_idem _

/-! Association list lookup under key constraints. -/

theorem lookup_none_of_keys {l : List (String × PyVal)} {k : String}
    (h : ∀ p ∈ l, ¬ p.1 = k) : l.lookup k = Option.none := by
  induction l with
  | nil => rfl
  | cons q rest ih =>
    rw [List.lookup]
    have hq : (k == q.1) = false :=
      beq_false_of_ne (fun he => h q (by simp) he.symm)
    rw [hq]
    exact ih (fun p hp => h p (by simp [hp]))

theorem lookup_some_of_mem_unique {l : List (String × PyVal)} {k : String} {v : PyVal}
    (hmem : (k, v) ∈ l) (huniq : ∀ p ∈ l, p.1 = k → p.2 = v) : l.lookup k = some v := by
  induction l with
  | nil => cases hmem
  | cons q rest ih =>
    rw [List.lookup]
    by_cases hk : k = q.1
    · have hq : (k == q.1) = true := beq_iff_eq.mpr hk
      rw [hq]
      exact congrArg some (huniq q (by simp) hk.symm)
    · have hq : (k == q.1) = false := beq_false_of_ne hk
      rw [hq]
      refine ih ?_ (fun p hp => huniq p (by simp [hp]))
      rcases List.mem_cons.mp hmem with heq | h2
      · exact absurd rfl (heq ▸ hk)
      · exact h2

theorem mem_sorted_canon_keys {ss : List (String × PyVal)} {q : String × PyVal}
    (hq : q ∈ sortByKey (canonEntries ss)) : ∃ q2 ∈ ss, q.1 = q2.1 := by
  have h1 : q ∈ canonEntries ss := (sortByKey_perm _).subset hq
  rw [canonEntries_eq_mapPair] at h1
  obtain ⟨q2, hq2, heq⟩ := List.mem_map.mp h1
  exact ⟨q2, hq2, by rw [← heq]; rfl⟩

/-- `startswith("_")` failing rules out `startswith("__")`. -/
theorem pyStartsWith_double {k : String} (h : pyStartsWith k "_" = false) :
    pyStartsWith k "__" = false := by
  unfold pyStartsWith at h ⊢
  cases k with
  | mk d =>
    cases d with
    | nil => rfl
    | cons c cs =>
      simp [List.isPrefixOf] at h ⊢
      intro hc
      exact absurd hc h

/-! Shapes of the encode/decode dispatch under each guard. -/

theorem deserialiseData_dict_dispatch (M : Marshall) (es : List (String × PyVal)) :
    M.deserialiseData (.dict es) =
      match classifyNode es with
      | .enumEnvelope => M.dictToEnum es
      | .objectEnvelope => M.dictToObject es
      | .codecEnvelope => M.codecDictToObject es
      | .plainMapping => (M.deserialiseEntries es).map PyVal.map := by
  rw [Marshall.deserialiseData.eq_def]
  show (if ((es.lookup "_value_").isSome && (es.lookup "_name_").isSome) = true
        then M.dictToEnum es
        else if (es.lookup "__fqn__").isSome = true then M.dictToObject es
        else if (es.lookup "__codec__").isSome = true then M.codecDictToObject es
        else (M.deserialiseEntries es).map PyVal.map) = _
  unfold classifyNode
  split_ifs <;> rfl

theorem classifyNode_plain {es : List (String × PyVal)}
    (h1 : ((es.lookup "_value_").isSome && (es.lookup "_name_").isSome) = false)
    (h2 : es.lookup "__fqn__" = Option.none)
    (h3 : es.lookup "__codec__" = Option.none) :
    classifyNode es = .plainMapping := by
  unfold classifyNode
  rw [h1, h2, h3]
  rfl

theorem classifyNode_object {es : List (String × PyVal)}
    (h1 : es.lookup "_value_" = Option.none)
    (h2 : (es.lookup "__fqn__").isSome = true) :
    classifyNode es = .objectEnvelope := by
  unfold classifyNode
  rw [h1, h2]
  rfl

theorem classifyNode_codecEnv {es : List (String × PyVal)}
    (h1 : es.lookup "_value_" = Option.none)
    (h2 : es.lookup "__fqn__" = Option.none)
    (h3 : (es.lookup "__codec__").isSome = true) :
    classifyNode es = .codecEnvelope := by
  unfold classifyNode
  rw [h1, h2, h3]
  rfl

theorem serialiseData_codec {M : Marshall} {v : PyVal}
    (h : M.isHandledByCodec v = true) :
    M.serialiseData v = .ok ((M.objectToCodecDict v).getD .none) := by
  rw [Marshall.serialiseData.eq_def, if_pos h]

theorem serialiseData_none {M : Marshall} (h : M.isHandledByCodec .none = false) :
    M.serialiseData .none = .ok .none := by
  rw [Marshall.serialiseData.eq_def, if_neg (by simp [h])]

theorem serialiseData_bool {M : Marshall} {b : Bool}
    (h : M.isHandledByCodec (.bool b) = false) :
    M.serialiseData (.bool b) = .ok (.bool b) := by
  rw [Marshall.serialiseData.eq_def, if_neg (by simp [h])]

theorem serialiseData_int {M : Marshall} {n : Int}
    (h : M.isHandledByCodec (.int n) = false) :
    M.serialiseData (.int n) = .ok (.int n) := by
  rw [Marshall.serialiseData.eq_def, if_neg (by simp [h])]

theorem serialiseData_str {M : Marshall} {s : String}
    (h : M.isHandledByCodec (.str s) = false) :
    M.serialiseData (.str s) = .ok (.str s) := by
  rw [Marshall.serialiseData.eq_def, if_neg (by simp [h])]

theorem serialiseData_list {M : Marshall} {xs : List PyVal}
    (h : M.isHandledByCodec (.list xs) = false) :
    M.serialiseData (.list xs) = (M.serialiseList xs).map PyVal.list := by
  rw [Marshall.serialiseData.eq_def, if_neg (by simp [h])]

theorem serialiseData_dict {M : Marshall} {es : List (String × PyVal)}
    (h : M.isHandledByCodec (.dict es) = false) :
    M.serialiseData (.dict es) = (M.serialiseEntries es).map PyVal.dict := by
  rw [Marshall.serialiseData.eq_def, if_neg (by simp [h])]

theorem serialiseData_map {M : Marshall} {es : List (String × PyVal)}
    (h : M.isHandledByCodec (.map es) = false) :
    M.serialiseData (.map es) = (M.serialiseEntries es).map PyVal.dict := by
  rw [Marshall.serialiseData.eq_def, if_neg (by simp [h])]

theorem serialiseData_obj {M : Marshall} {cls : String} {fields : List (String × PyVal)}
    (h : M.isHandledByCodec (.obj cls fields) = false) :
    M.serialiseData (.obj cls fields) = M.objectToDict cls fields := by
  rw [Marshall.serialiseData.eq_def, if_neg (by simp [h])]

theorem deserialiseData_none {M : Marshall} : M.deserialiseData .none = .ok .none := by
  rw [Marshall.deserialiseData.eq_def]

theorem deserialiseData_bool {M : Marshall} (b : Bool) :
    M.deserialiseData (.bool b) = .ok (.bool b) := by
  rw [Marshall.deserialiseData.eq_def]

theorem deserialiseData_int {M : Marshall} (n : Int) :
    M.deserialiseData (.int n) = .ok (.int n) := by
  rw [Marshall.deserialiseData.eq_def]

theorem deserialiseData_str {M : Marshall} (s : String) :
    M.deserialiseData (.str s) = .ok (.str s) := by
  rw [Marshall.deserialiseData.eq_def]

theorem deserialiseData_list {M : Marshall} (xs : List PyVal) :
    M.deserialiseData (.list xs) = (M.deserialiseList xs).map PyVal.list := by
  rw [Marshall.deserialiseData.eq_def]

/-- `_object_to_dict` on an instance with no underscore-marked
attributes: the envelope is exactly `__fqn__` plus the serialised
fields. -/
theorem objectToDict_clean {M : Marshall} {cls : String}
    {fields ss : List (String × PyVal)} {fqn : String}
    (hto : M.resolver.instanceToFqn cls = .ok fqn)
    (hv : fields.lookup "__version__" = Option.none)
    (hmg : fields.lookup "__msgid__" = Option.none)
    (hts : fields.lookup "__timestamp__" = Option.none)
    (hfil : fields.filter (fun p => !pyStartsWith p.1 "__") = fields)
    (hse : M.serialiseEntries fields = .ok ss) :
    M.objectToDict cls fields = .ok (.dict (("__fqn__", .str fqn) :: ss)) := by
  rw [Marshall.objectToDict.eq_def]
  rw [hto]
  simp only [Bind.bind, Except.bind]
  rw [hv, hmg]
  split
  · next t heq => rw [hts] at heq; cases heq
  · next heq =>
    rw [hfil, hse]
    simp

/-- `_dict_to_object` on a clean Object Envelope (no metadata keys):
the constructor call carries exactly the recursively deserialised
non-`__` fields. -/
theorem dictToObject_clean {M : Marshall} {es W : List (String × PyVal)}
    {fqn cls : String}
    (hmg : es.lookup "__msgid__" = Option.none)
    (hts : es.lookup "__timestamp__" = Option.none)
    (hde : M.deserialiseEntries (es.filter (fun p => !pyStartsWith p.1 "__")) = .ok W)
    (hfq : es.lookup "__fqn__" = some (.str fqn))
    (hfrom : M.resolver.fqnToType fqn = .ok cls) :
    M.dictToObject es = .ok (.obj cls W) := by
  rw [Marshall.dictToObject.eq_def]
  simp only [Bind.bind, Except.bind]
  rw [hmg]
  split
  · next t heq => rw [hts] at heq; cases heq
  · next heq =>
    rw [hde, hfq]
    simp [hfrom]

/-- Elementwise round-trip assembly through the sequence branch. -/
theorem list_serialise_assemble {M : Marshall} (xs : List PyVal) :
    (∀ x ∈ xs, ∃ s, M.serialiseData x = .ok s ∧ isJsonTree s = true ∧
      ∃ w, M.deserialiseData (canon s) = .ok w ∧ canon w = canon x) →
    ∃ ss, M.serialiseList xs = .ok ss ∧ isJsonTreeList ss = true ∧
      ∃ ws, M.deserialiseList (canonList ss) = .ok ws ∧ canonList ws = canonList xs := by
  induction xs with
  | nil =>
    intro h
    refine ⟨[], by rw [Marshall.serialiseList], by rw [isJsonTreeList], [], ?_, rfl⟩
    have h0 : canonList [] = [] := by rw [canonList]
    rw [h0, Marshall.deserialiseList]
  | cons x rest ih =>
    intro h
    obtain ⟨s, hs, hTs, w, hw, hcw⟩ := h x (by simp)
    obtain ⟨ss, hss, hTss, ws, hws, hcws⟩ := ih (fun y hy => h y (by simp [hy]))
    refine ⟨s :: ss, ?_, ?_, w :: ws, ?_, ?_⟩
    · rw [Marshall.serialiseList]
      rw [hs, hss]
      rfl
    · rw [isJsonTreeList, Bool.and_eq_true]
      exact ⟨hTs, hTss⟩
    · have h0 : canonList (s :: ss) = canon s :: canonList ss := by rw [canonList]
      rw [h0, Marshall.deserialiseList]
      rw [hw, hws]
      rfl
    · have h0 : canonList (w :: ws) = canon w :: canonList ws := by rw [canonList]
      have h1 : canonList (x :: rest) = canon x :: canonList rest := by rw [canonList]
      rw [h0, h1, hcw, hcws]

/-- Elementwise round-trip assembly through the mapping loop, keeping
the pointwise relation for the decode side. -/
theorem entries_serialise_assemble {M : Marshall} (es : List (String × PyVal)) :
    (∀ p ∈ es, ∃ s, M.serialiseData p.2 = .ok s ∧ isJsonTree s = true ∧
      ∃ w, M.deserialiseData (canon s) = .ok w ∧ canon w = canon p.2) →
    ∃ ss, M.serialiseEntries es = .ok ss ∧ isJsonTreeEntries ss = true ∧
      List.Forall₂ (fun p q => p.1 = q.1 ∧
        ∃ w, M.deserialiseData (canon q.2) = .ok w ∧ canon w = canon p.2) es ss := by
  induction es with
  | nil =>
    intro h
    exact ⟨[], by rw [Marshall.serialiseEntries], by rw [isJsonTreeEntries],
      List.Forall₂.nil⟩
  | cons q rest ih =>
    intro h
    rcases q with ⟨k, x⟩
    obtain ⟨s, hs, hTs, w, hw, hcw⟩ := h (k, x) (by simp)
    obtain ⟨ss, hss, hTss, hfa⟩ := ih (fun p hp => h p (by simp [hp]))
    refine ⟨(k, s) :: ss, ?_, ?_, ?_⟩
    · rw [Marshall.serialiseEntries]
      rw [hs, hss]
      rfl
    · rw [isJsonTreeEntries, Bool.and_eq_true]
      exact ⟨hTs, hTss⟩
    · exact List.Forall₂.cons ⟨rfl, w, hw, hcw⟩ hfa

/-- Keys free of the leading-underscore marker are not any of the
reserved envelope keys. -/
theorem key_not_reserved {kk : String} (h : pyStartsWith kk "_" = false) :
    ¬ kk = "_value_" ∧ ¬ kk = "_name_" ∧ ¬ kk = "__fqn__" ∧ ¬ kk = "__codec__" ∧
      ¬ kk = "__msgid__" ∧ ¬ kk = "__timestamp__" ∧ ¬ kk = "__version__" := by
  refine ⟨?_, ?_, ?_, ?_, ?_, ?_, ?_⟩ <;> intro he <;> rw [he] at h <;>
    exact absurd h (by decide)

/-- The round-trippable values: primitives, lists, mappings whose keys
avoid the envelope-classifying reserved keys (no `"__fqn__"` key, no
`"__codec__"` key, and not both `"_value_"` and `"_name_"` — otherwise
the decoder reads the mapping back as an envelope), objects with
unmarked field names, a resolvable class and no codec claiming the
node, and codec-handled values whose registered codec inverts its own
serialisation up to observable equality.  This is the domain the spec's
round-trip sentence can hold on: tuples are excluded (they decode as
lists — the counterexample), as are enum members (decode rebuilds the
member from the resolved class via `getattr`, whose class-side value
attribute lies outside the path-string model of classes). -/
inductive RT (M : Marshall) : PyVal → Prop where
  | rtNone (h : M.isHandledByCodec .none = false) : RT M .none
  | rtBool (b : Bool) (h : M.isHandledByCodec (.bool b) = false) : RT M (.bool b)
  | rtInt (n : Int) (h : M.isHandledByCodec (.int n) = false) : RT M (.int n)
  | rtStr (s : String) (h : M.isHandledByCodec (.str s) = false) : RT M (.str s)
  | rtList (xs : List PyVal) (h : M.isHandledByCodec (.list xs) = false)
      (hall : ∀ x ∈ xs, RT M x) : RT M (.list xs)
  | rtDict (es : List (String × PyVal)) (h : M.isHandledByCodec (.dict es) = false)
      (hfqn : ∀ p ∈ es, ¬ p.1 = "__fqn__")
      (hcodec : ∀ p ∈ es, ¬ p.1 = "__codec__")
      (henum : (∀ p ∈ es, ¬ p.1 = "_value_") ∨ (∀ p ∈ es, ¬ p.1 = "_name_"))
      (hall : ∀ p ∈ es, RT M p.2) : RT M (.dict es)
  | rtMap (es : List (String × PyVal)) (h : M.isHandledByCodec (.map es) = false)
      (hfqn : ∀ p ∈ es, ¬ p.1 = "__fqn__")
      (hcodec : ∀ p ∈ es, ¬ p.1 = "__codec__")
      (henum : (∀ p ∈ es, ¬ p.1 = "_value_") ∨ (∀ p ∈ es, ¬ p.1 = "_name_"))
      (hall : ∀ p ∈ es, RT M p.2) : RT M (.map es)
  | rtObj (cls : String) (fields : List (String × PyVal)) (fqn : String)
      (h : M.isHandledByCodec (.obj cls fields) = false)
      (hkeys : ∀ p ∈ fields, pyStartsWith p.1 "_" = false)
      (hto : M.resolver.instanceToFqn cls = .ok fqn)
      (hfrom : M.resolver.fqnToType fqn = .ok cls)
      (hall : ∀ p ∈ fields, RT M p.2) : RT M (.obj cls fields)
  | rtCodec (v : PyVal) (n : String) (c : MCodec) (p : PyVal)
      (h : M.isHandledByCodec v = true)
      (henv : M.objectToCodecDict v = some (.dict [("__codec__", .str n), ("params", p)]))
      (hjson : isJsonTree p = true)
      (hreg : M.codecs.lookup n = some c)
      (hdec : canon (c.deserialise (canon p)) = canon v) : RT M v

/-- The round-trip core: a round-trippable value serialises to a JSON
tree whose canonical form (what the render/parse pair reproduces)
deserialises back to the value up to observable equality. -/
theorem rt_roundtrip {M : Marshall} {v : PyVal} (hrt : RT M v) :
    ∃ s, M.serialiseData v = .ok s ∧ isJsonTree s = true ∧
      ∃ w, M.deserialiseData (canon s) = .ok w ∧ canon w = canon v := by
  induction hrt with
  | rtNone h =>
    refine ⟨.none, serialiseData_none h, by rw [isJsonTree], .none, ?_, rfl⟩
    have hc : canon PyVal.none = PyVal.none := by rw [canon]
    rw [hc]
    exact deserialiseData_none
  | rtBool b h =>
    refine ⟨.bool b, serialiseData_bool h, by rw [isJsonTree], .bool b, ?_, rfl⟩
    have hc : canon (PyVal.bool b) = PyVal.bool b := by rw [canon]
    rw [hc]
    exact deserialiseData_bool b
  | rtInt n h =>
    refine ⟨.int n, serialiseData_int h, by rw [isJsonTree], .int n, ?_, rfl⟩
    have hc : canon (PyVal.int n) = PyVal.int n := by rw [canon]
    rw [hc]
    exact deserialiseData_int n
  | rtStr str0 h =>
    refine ⟨.str str0, serialiseData_str h, by rw [isJsonTree], .str str0, ?_, rfl⟩
    have hc : canon (PyVal.str str0) = PyVal.str str0 := by rw [canon]
    rw [hc]
    exact deserialiseData_str str0
  | rtList xs h hall ih =>
    obtain ⟨ss, hser, hTss, ws, hws, hcws⟩ := list_serialise_assemble xs ih
    refine ⟨.list ss, ?_, ?_, .list ws, ?_, ?_⟩
    · rw [serialiseData_list h, hser]
      rfl
    · rw [isJsonTree]
      exact hTss
    · have hc : canon (PyVal.list ss) = PyVal.list (canonList ss) := by rw [canon]
      rw [hc, deserialiseData_list, hws]
      rfl
    · have hc1 : canon (PyVal.list ws) = PyVal.list (canonList ws) := by rw [canon]
      have hc2 : canon (PyVal.list xs) = PyVal.list (canonList xs) := by rw [canon]
      rw [hc1, hc2, hcws]
  | rtDict es h hfqn hcodec henum hall ih =>
    obtain ⟨ss, hser, hTss, hfa⟩ := entries_serialise_assemble es ih
    obtain ⟨W, hW, hsort⟩ := entries_decode_pipeline hfa
    have htrans : ∀ (P : String → Prop), (∀ p ∈ es, P p.1) →
        ∀ q ∈ sortByKey (canonEntries ss), P q.1 := by
      intro P hP q hq
      obtain ⟨q2, hq2, heq⟩ := mem_sorted_canon_keys hq
      obtain ⟨p, hp, hrel⟩ := forall2_mem_right hfa hq2
      rw [heq, ← hrel.1]
      exact hP p hp
    have hl1 : (((sortByKey (canonEntries ss)).lookup "_value_").isSome &&
        ((sortByKey (canonEntries ss)).lookup "_name_").isSome) = false := by
      rcases henum with hn | hn
      · rw [lookup_none_of_keys (htrans (fun kk => ¬ kk = "_value_") hn)]
        rfl
      · rw [lookup_none_of_keys (htrans (fun kk => ¬ kk = "_name_") hn)]
        simp
    have hl2 : (sortByKey (canonEntries ss)).lookup "__fqn__" = Option.none :=
      lookup_none_of_keys (htrans (fun kk => ¬ kk = "__fqn__") hfqn)
    have hl3 : (sortByKey (canonEntries ss)).lookup "__codec__" = Option.none :=
      lookup_none_of_keys (htrans (fun kk => ¬ kk = "__codec__") hcodec)
    refine ⟨.dict ss, ?_, ?_, .map W, ?_, ?_⟩
    · rw [serialiseData_dict h, hser]
      rfl
    · rw [isJsonTree]
      exact hTss
    · have hc : canon (PyVal.dict ss) = PyVal.dict (sortByKey (canonEntries ss)) := by
        rw [canon]
      rw [hc]
      have hdisp := deserialiseData_dict_dispatch M (sortByKey (canonEntries ss))
      rw [classifyNode_plain hl1 hl2 hl3] at hdisp
      replace hdisp : M.deserialiseData (.dict (sortByKey (canonEntries ss))) =
          (M.deserialiseEntries (sortByKey (canonEntries ss))).map PyVal.map := hdisp
      rw [hdisp, hW]
      rfl
    · have hc1 : canon (PyVal.map W) = PyVal.dict (sortByKey (canonEntries W)) := by
        rw [canon]
      have hc2 : canon (PyVal.dict es) = PyVal.dict (sortByKey (canonEntries es)) := by
        rw [canon]
      rw [hc1, hc2, hsort]
  | rtMap es h hfqn hcodec henum hall ih =>
    obtain ⟨ss, hser, hTss, hfa⟩ := entries_serialise_assemble es ih
    obtain ⟨W, hW, hsort⟩ := entries_decode_pipeline hfa
    have htrans : ∀ (P : String → Prop), (∀ p ∈ es, P p.1) →
        ∀ q ∈ sortByKey (canonEntries ss), P q.1 := by
      intro P hP q hq
      obtain ⟨q2, hq2, heq⟩ := mem_sorted_canon_keys hq
      obtain ⟨p, hp, hrel⟩ := forall2_mem_right hfa hq2
      rw [heq, ← hrel.1]
      exact hP p hp
    have hl1 : (((sortByKey (canonEntries ss)).lookup "_value_").isSome &&
        ((sortByKey (canonEntries ss)).lookup "_name_").isSome) = false := by
      rcases henum with hn | hn
      · rw [lookup_none_of_keys (htrans (fun kk => ¬ kk = "_value_") hn)]
        rfl
      · rw [lookup_none_of_keys (htrans (fun kk => ¬ kk = "_name_") hn)]
        simp
    have hl2 : (sortByKey (canonEntries ss)).lookup "__fqn__" = Option.none :=
      lookup_none_of_keys (htrans (fun kk => ¬ kk = "__fqn__") hfqn)
    have hl3 : (sortByKey (canonEntries ss)).lookup "__codec__" = Option.none :=
      lookup_none_of_keys (htrans (fun kk => ¬ kk = "__codec__") hcodec)
    refine ⟨.dict ss, ?_, ?_, .map W, ?_, ?_⟩
    · rw [serialiseData_map h, hser]
      rfl
    · rw [isJsonTree]
      exact hTss
    · have hc : canon (PyVal.dict ss) = PyVal.dict (sortByKey (canonEntries ss)) := by
        rw [canon]
      rw [hc]
      have hdisp := deserialiseData_dict_dispatch M (sortByKey (canonEntries ss))
      rw [classifyNode_plain hl1 hl2 hl3] at hdisp
      replace hdisp : M.deserialiseData (.dict (sortByKey (canonEntries ss))) =
          (M.deserialiseEntries (sortByKey (canonEntries ss))).map PyVal.map := hdisp
      rw [hdisp, hW]
      rfl
    · have hc1 : canon (PyVal.map W) = PyVal.dict (sortByKey (canonEntries W)) := by
        rw [canon]
      have hc2 : canon (PyVal.map es) = PyVal.dict (sortByKey (canonEntries es)) := by
        rw [canon]
      rw [hc1, hc2, hsort]
  | rtObj cls fields fqn h hkeys hto hfrom hall ih =>
    obtain ⟨ss, hser, hTss, hfa⟩ := entries_serialise_assemble fields ih
    obtain ⟨W, hW, hsort⟩ := entries_decode_pipeline hfa
    -- the encode-side field lookups are all misses
    have hv : fields.lookup "__version__" = Option.none :=
      lookup_none_of_keys (fun p hp => (key_not_reserved (hkeys p hp)).2.2.2.2.2.2)
    have hmg : fields.lookup "__msgid__" = Option.none :=
      lookup_none_of_keys (fun p hp => (key_not_reserved (hkeys p hp)).2.2.2.2.1)
    have hts : fields.lookup "__timestamp__" = Option.none :=
      lookup_none_of_keys (fun p hp => (key_not_reserved (hkeys p hp)).2.2.2.2.2.1)
    have hfil : fields.filter (fun p => !pyStartsWith p.1 "__") = fields := by
      rw [List.filter_eq_self]
      intro p hp
      rw [pyStartsWith_double (hkeys p hp)]
      rfl
    have henvser := objectToDict_clean hto hv hmg hts hfil hser
    -- the canonical envelope
    have hcanonEnv : canonEntries (("__fqn__", PyVal.str fqn) :: ss) =
        ("__fqn__", PyVal.str fqn) :: canonEntries ss := by
      rw [canonEntries]
      have hcstr : canon (PyVal.str fqn) = PyVal.str fqn := by rw [canon]
      rw [hcstr]
    -- membership view of the sorted canonical envelope
    have hmemL : ∀ q ∈ sortByKey (("__fqn__", PyVal.str fqn) :: canonEntries ss),
        q = ("__fqn__", PyVal.str fqn) ∨ pyStartsWith q.1 "_" = false := by
      intro q hq
      have h1 := (sortByKey_perm _).subset hq
      rcases List.mem_cons.mp h1 with heq | h2
      · exact Or.inl heq
      · right
        rw [canonEntries_eq_mapPair] at h2
        obtain ⟨q2, hq2, heq⟩ := List.mem_map.mp h2
        obtain ⟨p, hp, hrel⟩ := forall2_mem_right hfa hq2
        have : q.1 = q2.1 := by rw [← heq]; rfl
        rw [this, ← hrel.1]
        exact hkeys p hp
    have hl1 : (sortByKey (("__fqn__", PyVal.str fqn) :: canonEntries ss)).lookup
        "_value_" = Option.none := by
      refine lookup_none_of_keys (fun q hq => ?_)
      rcases hmemL q hq with heq | h2
      · rw [heq]
        show ¬ ("__fqn__" : String) = "_value_"
        decide
      · exact (key_not_reserved h2).1
    have hlf : (sortByKey (("__fqn__", PyVal.str fqn) :: canonEntries ss)).lookup
        "__fqn__" = some (PyVal.str fqn) := by
      refine lookup_some_of_mem_unique ?_ ?_
      · exact ((sortByKey_perm _).mem_iff).mpr (by simp)
      · intro q hq hqk
        rcases hmemL q hq with heq | h2
        · rw [heq]
        · exact absurd hqk (key_not_reserved h2).2.2.1
    have hlm : (sortByKey (("__fqn__", PyVal.str fqn) :: canonEntries ss)).lookup
        "__msgid__" = Option.none := by
      refine lookup_none_of_keys (fun q hq => ?_)
      rcases hmemL q hq with heq | h2
      · rw [heq]
        show ¬ ("__fqn__" : String) = "__msgid__"
        decide
      · exact (key_not_reserved h2).2.2.2.2.1
    have hlt : (sortByKey (("__fqn__", PyVal.str fqn) :: canonEntries ss)).lookup
        "__timestamp__" = Option.none := by
      refine lookup_none_of_keys (fun q hq => ?_)
      rcases hmemL q hq with heq | h2
      · rw [heq]
        show ¬ ("__fqn__" : String) = "__timestamp__"
        decide
      · exact (key_not_reserved h2).2.2.2.2.2.1
    -- the decode-side filter strips exactly the __fqn__ entry
    have hfilL : (sortByKey (("__fqn__", PyVal.str fqn) :: canonEntries ss)).filter
        (fun p => !pyStartsWith p.1 "__") = sortByKey (canonEntries ss) := by
      rw [filter_sortByKey]
      have h1 : (("__fqn__", PyVal.str fqn) :: canonEntries ss).filter
          (fun p => !pyStartsWith p.1 "__") = canonEntries ss := by
        rw [List.filter_cons]
        rw [if_neg (by show ¬ (!pyStartsWith "__fqn__" "__") = true; decide)]
        rw [List.filter_eq_self]
        intro q hq
        rw [canonEntries_eq_mapPair] at hq
        obtain ⟨q2, hq2, heq⟩ := List.mem_map.mp hq
        obtain ⟨p, hp, hrel⟩ := forall2_mem_right hfa hq2
        have hqk : q.1 = q2.1 := by rw [← heq]; rfl
        have h3 : pyStartsWith q.1 "_" = false := by
          rw [hqk, ← hrel.1]
          exact hkeys p hp
        rw [pyStartsWith_double h3]
        rfl
      rw [h1]
    refine ⟨.dict (("__fqn__", PyVal.str fqn) :: ss), ?_, ?_, .obj cls W, ?_, ?_⟩
    · rw [serialiseData_obj h, henvser]
    · rw [isJsonTree, isJsonTreeEntries, Bool.and_eq_true]
      exact ⟨by rw [isJsonTree], hTss⟩
    · have hc : canon (PyVal.dict (("__fqn__", PyVal.str fqn) :: ss)) =
          PyVal.dict (sortByKey (("__fqn__", PyVal.str fqn) :: canonEntries ss)) := by
        rw [canon, hcanonEnv]
      rw [hc]
      have hdisp := deserialiseData_dict_dispatch M
        (sortByKey (("__fqn__", PyVal.str fqn) :: canonEntries ss))
      rw [classifyNode_object hl1 (by rw [hlf]; rfl)] at hdisp
      replace hdisp : M.deserialiseData
          (.dict (sortByKey (("__fqn__", PyVal.str fqn) :: canonEntries ss))) =
          M.dictToObject (sortByKey (("__fqn__", PyVal.str fqn) :: canonEntries ss)) :=
        hdisp
      rw [hdisp]
      refine dictToObject_clean hlm hlt ?_ hlf hfrom
      rw [hfilL]
      exact hW
    · have hc1 : canon (PyVal.obj cls W) =
          PyVal.obj cls (sortByKey (canonEntries W)) := by rw [canon]
      have hc2 : canon (PyVal.obj cls fields) =
          PyVal.obj cls (sortByKey (canonEntries fields)) := by rw [canon]
      rw [hc1, hc2, hsort]
  | rtCodec v n c p h henv hjson hreg hdec =>
    refine ⟨.dict [("__codec__", PyVal.str n), ("params", p)], ?_, ?_, ?_⟩
    · rw [serialiseData_codec h, henv]
      rfl
    · rw [isJsonTree, isJsonTreeEntries, Bool.and_eq_true]
      refine ⟨by rw [isJsonTree], ?_⟩
      rw [isJsonTreeEntries, Bool.and_eq_true]
      refine ⟨hjson, by rw [isJsonTreeEntries]⟩
    · have hcanonE : canon (PyVal.dict [("__codec__", PyVal.str n), ("params", p)]) =
          PyVal.dict [("__codec__", PyVal.str n), ("params", canon p)] := by
        rw [canon]
        have h1 : canonEntries [("__codec__", PyVal.str n), ("params", p)] =
            [("__codec__", PyVal.str n), ("params", canon p)] := by
          rw [canonEntries, canonEntries, canonEntries]
          have hcstr : canon (PyVal.str n) = PyVal.str n := by rw [canon]
          rw [hcstr]
        rw [h1]
        have h2 : sortByKey [("__codec__", PyVal.str n), ("params", canon p)] =
            [("__codec__", PyVal.str n), ("params", canon p)] := by
          refine sortByKey_of_sorted ?_
          refine List.pairwise_cons.mpr ⟨?_, ?_⟩
          · intro q hq
            rcases List.mem_singleton.mp hq with rfl
            show pyStrLe "__codec__" "params" = true
            decide
          · simp
        rw [h2]
      rw [hcanonE]
      have hl1 : List.lookup "_value_"
          [("__codec__", PyVal.str n), ("params", canon p)] = Option.none := rfl
      have hl2 : List.lookup "__fqn__"
          [("__codec__", PyVal.str n), ("params", canon p)] = Option.none := rfl
      have hl3 : List.lookup "__codec__"
          [("__codec__", PyVal.str n), ("params", canon p)] = some (PyVal.str n) := rfl
      have hl4 : List.lookup "params"
          [("__codec__", PyVal.str n), ("params", canon p)] = some (canon p) := rfl
      have hdisp := deserialiseData_dict_dispatch M
        [("__codec__", PyVal.str n), ("params", canon p)]
      rw [classifyNode_codecEnv hl1 hl2 (by rw [hl3]; rfl)] at hdisp
      replace hdisp : M.deserialiseData
          (.dict [("__codec__", PyVal.str n), ("params", canon p)]) =
          M.codecDictToObject [("__codec__", PyVal.str n), ("params", canon p)] := hdisp
      rw [hdisp]
      refine ⟨c.deserialise (canon p), ?_, hdec⟩
      unfold Marshall.codecDictToObject
      rw [hl3]
      simp only [Bind.bind, Except.bind]
      rw [hreg, hl4]

/-- C1 (amended): the round trip holds up to observable equality on the
round-trippable domain: for every value built from primitives, lists,
mappings whose keys avoid the envelope-classifying reserved keys (no
`__fqn__` or `__codec__` key, and not both `_value_` and `_name_` — a
mapping carrying those keys is read back as an envelope, not a
mapping), codec-handled values with a faithful registered codec, and
objects with unmarked constructor-stored fields and a resolvable class,
`from_json(to_json(v))` succeeds and the result is observably equal to
`v` (`canon` identifies exactly Python `==` on the shapes involved:
decoded mappings come back as immutable `immutables.Map`s that compare
key/value-equal to the encode-time mappings).  Tuples are excluded: they
decode as lists (see the counterexample). -/
theorem c1_round_trip (M : Marshall) (v : PyVal) (hrt : RT M v) :
    ∃ txt w, M.toJson v = .ok txt ∧ M.fromJson txt = .ok w ∧ canon w = canon v := by
  obtain ⟨s, hser, hjson, w, hdes, hcw⟩ := rt_roundtrip hrt
  obtain ⟨txt, htxt⟩ := dumps_ok s hjson
  refine ⟨txt, w, ?_, ?_, hcw⟩
  · unfold Marshall.toJson
    simp only [Bind.bind, Except.bind]
    rw [hser]
    exact htxt
  · unfold Marshall.fromJson
    rw [loads_dumps s hjson txt htxt]
    exact hdes

/-- C1 counterexample: an ordered sequence does not round-trip
observably — a one-element tuple encodes to the JSON array `[1]`, which
decodes to the Python *list* `[1]`, and `(1,) == [1]` is `False` in
Python (different observable type). -/
theorem c1_counterexample :
    ∃ w, (Marshall.mk (FqnResolver.mk []) []).toJson (.tuple [.int 1]) = .ok "[1]" ∧
      (Marshall.mk (FqnResolver.mk []) []).fromJson "[1]" = .ok w ∧
      ¬ canon w = canon (.tuple [.int 1]) := by
  refine ⟨.list [.int 1], ?_, ?_, ?_⟩
  · unfold Marshall.toJson
    simp only [Bind.bind, Except.bind]
    have hser : (Marshall.mk (FqnResolver.mk []) []).serialiseData (.tuple [.int 1]) =
        .ok (.list [.int 1]) := by
      rw [Marshall.serialiseData.eq_def]
      rw [if_neg (by decide)]
      show ((Marshall.mk (FqnResolver.mk []) []).serialiseList [.int 1]).map PyVal.list =
        Except.ok (.list [.int 1])
      rw [Marshall.serialiseList]
      rw [serialiseData_int (by decide), Marshall.serialiseList]
      rfl
    rw [hser]
    show dumps (.list [.int 1]) = Except.ok "[1]"
    have hdv : dumpVal (.list [.int 1]) = .ok ['[', '1', ']'] := by
      have h1 : dumpList [.int 1] = .ok [['1']] := by
        rw [dumpList, dumpVal]
        rw [show intChars 1 = ['1'] from rfl]
        rw [dumpList]
        rfl
      rw [dumpVal_list_ok h1]
      rfl
    unfold dumps
    rw [hdv]
    rfl
  · unfold Marshall.fromJson
    have hl : loads "[1]" = some (.list [.int 1]) := rfl
    rw [hl]
    show (Marshall.mk (FqnResolver.mk []) []).deserialiseData (.list [.int 1]) =
      Except.ok (PyVal.list [PyVal.int 1])
    rw [deserialiseData_list]
    rw [Marshall.deserialiseList]
    rw [deserialiseData_int, Marshall.deserialiseList]
    rfl
  · have h1 : canon (PyVal.list [.int 1]) = PyVal.list [.int 1] := by
      rw [canon]
      rw [canonList]
      rw [canon]
      rw [canonList]
    have h2 : canon (PyVal.tuple [.int 1]) = PyVal.tuple (canonList [.int 1]) := by
      rw [canon]
    rw [h1, h2]
    intro he
    cases he

/-- C1 witness: the amended round trip at a concrete mapping — one
whose key carries a single leading underscore, inside the disclosed
mapping domain — through the empty-registry marshall. -/
theorem c1_witness :
    ∃ txt w,
      (Marshall.mk (FqnResolver.mk []) []).toJson (.dict [("_x", .int 1)]) = .ok txt ∧
      (Marshall.mk (FqnResolver.mk []) []).fromJson txt = .ok w ∧
      canon w = canon (.dict [("_x", .int 1)]) :=
  c1_round_trip (Marshall.mk (FqnResolver.mk []) []) (.dict [("_x", .int 1)])
    (RT.rtDict [("_x", .int 1)] (by decide) (by decide) (by decide)
      (Or.inl (by decide))
      (fun p hp => by
        rcases List.mem_singleton.mp hp with rfl
        exact RT.rtInt 1 (by decide)))

/-- C2: encoding is deterministic over the logical value: rendering is
compact with map keys in sorted order, so two insertion orders of the
same mapping produce byte-identical text (and as a pure function,
repeated calls trivially agree).  Stated with an empty codec registry —
codec callbacks are external code whose behaviour the engine does not
control. -/
theorem c2_deterministic_encoding (M : Marshall) (e₁ e₂ : List (String × PyVal))
    (s : String) (hM : M.codecs = []) (hp : e₁.Perm e₂)
    (hn : (e₁.map Prod.fst).Nodup) (h : M.toJson (.dict e₁) = .ok s) :
    M.toJson (.dict e₂) = .ok s := by
  have hnc : ∀ v, M.isHandledByCodec v = false := by
    intro v
    simp [Marshall.isHandledByCodec, hM]
  have hser : ∀ e : List (String × PyVal),
      M.serialiseData (.dict e) = (M.serialiseEntries e).map PyVal.dict := by
    intro e
    rw [Marshall.serialiseData.eq_def]
    simp only [hnc, Bool.false_eq_true, if_false]
  unfold Marshall.toJson at h ⊢
  simp only [Bind.bind, Except.bind, hser] at h ⊢
  rcases h1 : M.serialiseEntries e₁ with e | l₁ <;> rw [h1] at h
  · cases h
  · have hmem₁ := serialiseEntries_ok_mem h1
    have hmem₂ : ∀ p ∈ e₂, ∃ y, M.serialiseData p.2 = .ok y :=
      fun p hp2 => hmem₁ p (hp.mem_iff.mpr hp2)
    have h2 : M.serialiseEntries e₂ = .ok (e₂.map (serialiseImage M)) :=
      serialiseEntries_eq_map hmem₂
    have h1' : l₁ = e₁.map (serialiseImage M) := by
      have := serialiseEntries_eq_map hmem₁
      rw [h1] at this
      exact (Except.ok.injEq _ _).mp this
    have hkeys : ∀ (e : List (String × PyVal)),
        (e.map (serialiseImage M)).map Prod.fst = e.map Prod.fst := by
      intro e
      rw [List.map_map]
      exact List.map_congr_left (fun p _ => rfl)
    have hsort : sortByKey (e₁.map (serialiseImage M)) =
        sortByKey (e₂.map (serialiseImage M)) := by
      refine eq_of_perm_of_sorted_keys ?_ (sortByKey_sorted _)
        (sortByKey_sorted _) ?_
      · exact (sortByKey_perm _).trans
          ((hp.map (serialiseImage M)).trans (sortByKey_perm _).symm)
      · refine (((sortByKey_perm _).map Prod.fst).nodup_iff).mpr ?_
        rw [hkeys]
        exact hn
    replace h : dumps (PyVal.dict l₁) = Except.ok s := h
    rw [h2]
    show dumps (PyVal.dict (e₂.map (serialiseImage M))) = Except.ok s
    rw [h1'] at h
    unfold dumps at h ⊢
    rw [dumpVal_dict] at h ⊢
    rw [← hsort]
    exact h

/-- C2 witness: two insertion orders of a two-entry mapping produce the
same canonical text under the empty-registry marshall. -/
theorem c2_witness :
    (Marshall.mk ⟨[]⟩ []).toJson
        (.dict [("a", .int 2), ("b", .int 1)]) =
      .ok "\x7b\"a\":2,\"b\":1\x7d" := by
  apply c2_deterministic_encoding (Marshall.mk ⟨[]⟩ [])
    [("b", .int 1), ("a", .int 2)] _ _ rfl (List.Perm.swap _ _ _) (by decide)
  have hs : sortByKey [("b", PyVal.int 1), ("a", PyVal.int 2)] =
      [("a", PyVal.int 2), ("b", PyVal.int 1)] := rfl
  simp [Marshall.toJson, Marshall.serialiseData, Marshall.serialiseEntries,
    Marshall.isHandledByCodec, dumps, dumpVal, dumpEntries, hs, Bind.bind,
    Except.bind, Except.map]
  rfl

/-- C5 counterexample: the codec payload key `"params"` is a reserved
envelope key (required in every Codec Envelope) yet carries no
underscore marker, and an ordinary exported field named `params` passes
the serialiser's field filter untouched, so ordinary field names are not
syntactically excluded from the reserved-key space. -/
theorem c5_counterexample :
    ("params" ∈ reservedEnvelopeKeys ∧ markerKey "params" = false)
    ∧ (Marshall.mk ⟨[("P", "Q")]⟩ []).serialiseData (.obj "Q" [("params", .int 1)]) =
        .ok (.dict [("__fqn__", .str "P"), ("params", .int 1)]) := by
  refine ⟨⟨by decide, by decide⟩, ?_⟩
  simp [Marshall.serialiseData, Marshall.objectToDict, Marshall.serialiseEntries,
    Marshall.isHandledByCodec, FqnResolver.instanceToFqn, FqnResolver.getFqn,
    FqnResolver.lookupFqn, FqnResolver.privateToPublic, pyStartsWith, List.lookup,
    List.filter, List.isPrefixOf, Bind.bind, Except.bind]

/-- C5 (amended): a decoded mapping node is classified as exactly one of
enum envelope, object envelope, codec envelope or plain mapping, by
presence of reserved keys tested in that fixed precedence order
(`deserialise_data` follows `classifyNode` exactly), and every
classification-driving and metadata key carries the underscore marker
convention — the codec payload key `params` alone does not. -/
theorem c5_classification (M : Marshall) (es : List (String × PyVal)) :
    (M.deserialiseData (.dict es) =
      match classifyNode es with
      | .enumEnvelope => M.dictToEnum es
      | .objectEnvelope => M.dictToObject es
      | .codecEnvelope => M.codecDictToObject es
      | .plainMapping => (M.deserialiseEntries es).map PyVal.map)
    ∧ ((classificationKeys ++ metadataKeys).all markerKey = true) :=
  ⟨deserialiseData_dict_dispatch M es, by decide⟩

/-- C6 counterexample: deserialising a JSON array node returns a Python
`list` — a mutable container — so deserialisation does not avoid mutable
containers in general. -/
theorem c6_counterexample :
    (Marshall.mk ⟨[]⟩ []).deserialiseData (.list [.int 1]) = .ok (.list [.int 1])
    ∧ isMutableContainer (.list [.int 1]) = true := by
  constructor
  · simp [Marshall.deserialiseData, Marshall.deserialiseList]
    rfl
  · rfl

theorem dictToEnum_shape {M : Marshall} {es : List (String × PyVal)} {w : PyVal}
    (h : M.dictToEnum es = .ok w) : ∃ c n v, w = .enumMember c n v := by
  unfold Marshall.dictToEnum at h
  simp only [Bind.bind, Except.bind] at h
  repeat' split at h
  all_goals cases h
  all_goals exact ⟨_, _, _, rfl⟩

theorem dictToObject_shape {M : Marshall} {es : List (String × PyVal)} {w : PyVal}
    (h : M.dictToObject es = .ok w) : ∃ c f, w = .obj c f := by
  unfold Marshall.dictToObject at h
  simp only [Bind.bind, Except.bind] at h
  repeat' split at h
  all_goals cases h
  all_goals exact ⟨_, _, rfl⟩

/-- C6 (amended): every plain mapping node — `dict` or `immutables.Map`
input alike — deserialises to an immutable `Map` of the recursively
deserialised values, and (with the codec registry empty, codec outputs
being external) no result of `deserialise_data` is a mutable mapping;
decoded sequence nodes, however, are ordinary mutable lists. -/
theorem c6_immutable_mapping_decode (M : Marshall) (es : List (String × PyVal))
    (h : classifyNode es = .plainMapping) :
    M.deserialiseData (.dict es) = (M.deserialiseEntries es).map PyVal.map
    ∧ M.deserialiseData (.map es) = (M.deserialiseEntries es).map PyVal.map
    ∧ (∀ v w, M.codecs = [] → M.deserialiseData v = .ok w →
        isMutableMapping w = false) := by
  refine ⟨?_, by rw [Marshall.deserialiseData.eq_def], ?_⟩
  · have := deserialiseData_dict_dispatch M es
    rw [h] at this
    exact this
  · intro v w hM hd
    cases v with
    | dict es' =>
      rw [Marshall.deserialiseData.eq_def] at hd
      replace hd :
          (if ((es'.lookup "_value_").isSome && (es'.lookup "_name_").isSome) = true
           then M.dictToEnum es'
           else if (es'.lookup "__fqn__").isSome = true then M.dictToObject es'
           else if (es'.lookup "__codec__").isSome = true then M.codecDictToObject es'
           else (M.deserialiseEntries es').map PyVal.map) = Except.ok w := hd
      split_ifs at hd with h1 h2 h3
      · obtain ⟨c, n, v0, rfl⟩ := dictToEnum_shape hd
        rfl
      · obtain ⟨c, f, rfl⟩ := dictToObject_shape hd
        rfl
      · unfold Marshall.codecDictToObject at hd
        simp only [Bind.bind, Except.bind, hM, List.lookup] at hd
        repeat' split at hd
        all_goals cases hd
      · rcases h5 : M.deserialiseEntries es' with e | l <;> rw [h5] at hd <;> cases hd
        rfl
    | list xs =>
      rw [Marshall.deserialiseData.eq_def] at hd
      replace hd : (M.deserialiseList xs).map PyVal.list = Except.ok w := hd
      rcases h5 : M.deserialiseList xs with e | l <;> rw [h5] at hd <;> cases hd
      rfl
    | tuple xs =>
      rw [Marshall.deserialiseData.eq_def] at hd
      replace hd : (M.deserialiseList xs).map PyVal.list = Except.ok w := hd
      rcases h5 : M.deserialiseList xs with e | l <;> rw [h5] at hd <;> cases hd
      rfl
    | map es' =>
      rw [Marshall.deserialiseData.eq_def] at hd
      replace hd : (M.deserialiseEntries es').map PyVal.map = Except.ok w := hd
      rcases h5 : M.deserialiseEntries es' with e | l <;> rw [h5] at hd <;> cases hd
      rfl
    | none =>
      rw [Marshall.deserialiseData.eq_def] at hd
      replace hd : Except.ok PyVal.none = Except.ok w := hd
      cases hd
      rfl
    | bool b =>
      rw [Marshall.deserialiseData.eq_def] at hd
      replace hd : Except.ok (PyVal.bool b) = Except.ok w := hd
      cases hd
      rfl
    | int n =>
      rw [Marshall.deserialiseData.eq_def] at hd
      replace hd : Except.ok (PyVal.int n) = Except.ok w := hd
      cases hd
      rfl
    | str s =>
      rw [Marshall.deserialiseData.eq_def] at hd
      replace hd : Except.ok (PyVal.str s) = Except.ok w := hd
      cases hd
      rfl
    | obj c f =>
      rw [Marshall.deserialiseData.eq_def] at hd
      replace hd : Except.ok (PyVal.obj c f) = Except.ok w := hd
      cases hd
      rfl
    | enumMember c n v0 =>
      rw [Marshall.deserialiseData.eq_def] at hd
      replace hd : Except.ok (PyVal.enumMember c n v0) = Except.ok w := hd
      cases hd
      rfl

/-- C6 witness: the amended statement applied at a concrete
single-entry plain mapping under the empty-registry marshall. -/
theorem c6_witness :
    (Marshall.mk ⟨[]⟩ []).deserialiseData (.dict [("x", .int 1)]) =
      ((Marshall.mk ⟨[]⟩ []).deserialiseEntries [("x", .int 1)]).map PyVal.map :=
  (c6_immutable_mapping_decode (Marshall.mk ⟨[]⟩ []) [("x", .int 1)] rfl).1

/-- C7: the encode recursion of `serialise_data` tracks no visited
identities, so on the self-referential list `l = []; l.append(l)` every
stack budget is exhausted — the walk never produces a value no matter
how much stack is available (Python: `RecursionError`), and no
cyclic-structure error type exists anywhere in the source. -/
theorem c7_cycle_unbounded_recursion :
    ∀ fuel : Nat, serialiseSteps cyclicHeap fuel 0 = Option.none := by
  intro fuel
  induction fuel with
  | zero => rfl
  | succ n ih => simp [serialiseSteps, cyclicHeap, List.mapM, List.mapM.loop, ih]

/-- C8: deserialising a Codec Envelope naming an unregistered codec
fails with a plain `KeyError` from the registry subscript
`self._codecs[fcn]` (not with the file's never-raised `NoCodecError`). -/
theorem c8_unknown_codec_raises_keyerror :
    (Marshall.mk ⟨[]⟩ []).deserialiseData
      (.dict [("__codec__", .str "missing"), ("params", .none)]) =
      .error (.keyError "missing") := by
  simp [Marshall.deserialiseData, Marshall.codecDictToObject, List.lookup]
  rfl

/-- C9: deserialising an Object Envelope or an Enum Envelope whose type
identifier resolves through neither the exact nor the wildcard table
fails with the resolver's error, propagated uncaught to the caller. -/
theorem c9_unknown_fqn_fails (M : Marshall) (fqn n : String) (vv : PyVal) (e : PyErr)
    (h : M.resolver.fqnToType fqn = .error e) :
    M.deserialiseData (.dict [("__fqn__", .str fqn)]) = .error e
    ∧ M.deserialiseData
        (.dict [("__fqn__", .str fqn), ("_name_", .str n), ("_value_", vv)]) =
        .error e := by
  constructor
  · rw [Marshall.deserialiseData.eq_def]
    simp only [List.lookup, Marshall.dictToObject, Marshall.deserialiseEntries]
    simp [Marshall.dictToObject, Marshall.deserialiseEntries, List.lookup, List.filter,
      pyStartsWith, h, Bind.bind, Except.bind]
  · rw [Marshall.deserialiseData.eq_def]
    simp [Marshall.dictToEnum, List.lookup, h, Bind.bind, Except.bind]

/-- C9 witness: the failure at a concrete unmapped identifier under the
empty resolver. -/
theorem c9_witness :
    (Marshall.mk ⟨[]⟩ []).deserialiseData (.dict [("__fqn__", .str "nope")]) =
      .error (.keyError "nope") :=
  (c9_unknown_fqn_fails (Marshall.mk ⟨[]⟩ []) "nope" "x" .none (.keyError "nope") rfl).1

end Eventz
